import Mathlib

/-!
Verification of the ArchyTask outline engine (src/media/main.js) and its
Markdown serializer (parseMarkdown / stringifyItems).  The JavaScript source
is shallowly embedded: mutable module state becomes the `AppState` record,
array splices become explicit list surgery, JS `Set` objects become
duplicate-free `List Nat` values, and `JSON.parse(JSON.stringify(x))` deep
copies become plain structural copies (value equality).  Indices that the
source stores as possibly `-1` sentinels are embedded as `Int`.
-/

namespace ArchyTask

/-! ### Small list/set helpers shared by the embedding -/

/-- Membership-preserving model of `Set.add` (JS sets keep insertion order
and ignore duplicate insertions). -/
def setAdd (s : List Nat) (i : Nat) : List Nat :=
  if i ∈ s then s else s ++ [i]

/-- Model of `Set.delete`. -/
def setDel (s : List Nat) (i : Nat) : List Nat :=
  s.filter (fun j => j ≠ i)

/-- Insert into an ascending list, used to model
`Array.from(set).sort((a, b) => a - b)`. -/
def insertAsc (n : Nat) : List Nat → List Nat
  | [] => [n]
  | m :: ms => if n ≤ m then n :: m :: ms else m :: insertAsc n ms

/-- Ascending sort of a JS set's elements. -/
def sortAsc (l : List Nat) : List Nat := l.foldr insertAsc []

/-- Descending sort, modelling `sort((a, b) => b - a)`. -/
def sortDesc (l : List Nat) : List Nat := (sortAsc l).reverse

/-- Model of `Math.min(...set)` for a nonempty set; returns `0` on `[]`
(the source only evaluates it on nonempty sets). -/
def setMin : List Nat → Nat
  | [] => 0
  | x :: xs => xs.foldl min x

/-- Model of `array.splice(i, 0, ...xs)`: insert `xs` at position `i`
(appending when `i` is past the end, as JS does). -/
def listInsertAt (l : List α) (i : Nat) (xs : List α) : List α :=
  l.take i ++ xs ++ l.drop i

/-- Model of `array.splice(i, cnt)`: remove `cnt` elements starting at `i`. -/
def listRemoveAt (l : List α) (i : Nat) (cnt : Nat) : List α :=
  l.take i ++ l.drop (i + cnt)

/-- Model of the single-index mutation `array[i] = f(array[i])`. -/
def listModify (f : α → α) : Nat → List α → List α
  | _, [] => []
  | 0, x :: xs => f x :: xs
  | n + 1, x :: xs => x :: listModify f n xs

/-- Whitespace class shared by JS `String.prototype.trim` and the regex
class `\s`: the WhiteSpace and LineTerminator sets — tab, LF, VT, FF, CR,
space, NBSP, the Ogham space mark, the Unicode space separators
U+2000–U+200A, the line and paragraph separators U+2028/U+2029, the narrow
and medium mathematical spaces, the ideographic space and ZWNBSP. -/
def isJsWs (c : Char) : Bool :=
  c == ' ' || c == '\t' || c == '\n' || c == '\r' || c == '\x0B' ||
    c == '\x0C' || c == '\u00A0' || c == '\u1680' ||
    (0x2000 ≤ c.toNat && c.toNat ≤ 0x200A) ||
    c == '\u2028' || c == '\u2029' || c == '\u202F' || c == '\u205F' ||
    c == '\u3000' || c == '\uFEFF'

/-- JS `trim()` over a character list. -/
def jsTrim (cs : List Char) : List Char :=
  ((cs.dropWhile isJsWs).reverse.dropWhile isJsWs).reverse

/-- JS `trim()` over a Lean string (used for the edit box's
`input.value.trim()`). -/
def jsStrTrim (s : String) : String := String.mk (jsTrim s.data)

/-- Model of `array.findIndex(p)` (`-1` embedded as `none`). -/
def jsFindIndex (p : α → Bool) : List α → Option Nat
  | [] => none
  | x :: xs => if p x then some 0 else (jsFindIndex p xs).map (· + 1)

/-! ### Data model

The item records produced by the `ItemTodo` / `ItemHeading` constructors
(models segment of `src/src/SidebarProvider.ts`, consumed by main.js as
plain objects with fields `id / type / title / indent / isChecked /
note`). -/

/-- Tag distinguishing the two item constructs (`type: 'todo' | 'heading'`). -/
inductive ItemType where
  | todo
  | heading
  deriving Repr, DecidableEq

/-- Outline item as held in the webview's `items` / `archivedItems` arrays. -/
structure Item where
  id : Nat
  type : ItemType
  title : String
  indent : Nat
  isChecked : Bool
  note : String
  deriving Repr, DecidableEq

/-- Snapshot stored by the history engine: a deep copy of the
`(items, archivedItems)` pair. -/
abbrev Snapshot := List Item × List Item

/-- Module-level mutable state of media/main.js that the embedded operations
read and write.  `nextId` supplies the fresh identifiers that
`ItemUtils.generateId` produces from `Date.now()` plus randomness; the
embedding only relies on freshness. -/
structure AppState where
  items : List Item
  archivedItems : List Item
  history : List Snapshot
  future : List Snapshot
  activeIndex : Int
  anchorIndex : Int
  selectedIndices : List Nat
  archivedSelectedIndices : List Nat
  archivedActiveIndex : Int
  archivedAnchorIndex : Int
  isArchiveActive : Bool
  isArchiveHeaderSelected : Bool
  editingId : Option Nat
  isNewItem : Bool
  clipboard : List Item
  isArchiveHidden : Bool
  nextId : Nat
  deriving Repr, DecidableEq

/-- The pristine state of the webview before any outline is loaded. -/
def AppState.empty : AppState :=
  { items := [], archivedItems := [], history := [], future := []
    activeIndex := -1, anchorIndex := -1, selectedIndices := []
    archivedSelectedIndices := [], archivedActiveIndex := -1
    archivedAnchorIndex := -1, isArchiveActive := false
    isArchiveHeaderSelected := false, editingId := none, isNewItem := false
    clipboard := [], isArchiveHidden := true, nextId := 0 }

/-- Current `(items, archivedItems)` document pair of a state. -/
def docOf (s : AppState) : Snapshot := (s.items, s.archivedItems)

/-- Constant `Constants.MAX_HISTORY_SIZE`. -/
def MAX_HISTORY_SIZE : Nat := 50

/-! ### ItemUtils -/

namespace ItemUtils

/-- `ItemUtils.isArchiveHeading`. -/
def isArchiveHeading (it : Item) : Bool :=
  it.type == .heading && it.title == "Archive"

/-- `ItemUtils.isArchiveHeading` applied to a possibly-undefined lookup
(JS `item && ...` truthiness guard). -/
def isArchiveHeadingO : Option Item → Bool
  | none => false
  | some it => isArchiveHeading it

/-- `ItemUtils.findArchiveIndex` (`findIndex` returning `-1` when absent is
embedded as `Option Nat`). -/
def findArchiveIndex (itemList : List Item) : Option Nat :=
  jsFindIndex (fun i => isArchiveHeading i) itemList

/-- Loop body of `getChildCount`: count items until one with `indent <= 0`
or a heading is reached. -/
def countChildren (l : List Item) : Nat :=
  (l.takeWhile (fun it => !(it.indent ≤ 0 || it.type == .heading))).length

/-- `ItemUtils.getChildCount`. -/
def getChildCount (itemList : List Item) (parentIndex : Nat) : Nat :=
  match itemList.get? parentIndex with
  | none => 0
  | some parentItem =>
    if parentItem.indent ≠ 0 || parentItem.type == .heading then 0
    else countChildren (itemList.drop (parentIndex + 1))

/-- Block size starting at `index`: the count computed by
`ItemUtils.getItemWithChildren` (and identically by
`MoveUtils.getBlockCount`). -/
def blockCount (itemList : List Item) (index : Nat) : Nat :=
  match itemList.get? index with
  | none => 0
  | some item =>
    if item.type == .heading then
      1 + (itemList.drop (index + 1) |>.takeWhile
            (fun it => !(it.type == .heading))).length
    else if item.indent = 0 then
      1 + countChildren (itemList.drop (index + 1))
    else 1

/-- `ItemUtils.getItemWithChildren` (returns `([], 0)` out of range). -/
def getItemWithChildren (itemList : List Item) (index : Nat) :
    List Item × Nat :=
  let count := blockCount itemList index
  ((itemList.drop index).take count, count)

/-- Upward scan of `isParentSelected`: starting at `i` and walking toward
index 0, return `sel.has j` at the first `j` with indent 0 (note the source
tests `indent === PARENT` before the heading test, so a heading with
indent 0 terminates the scan through the first branch). -/
def scanParentSelected (itemList : List Item) (sel : List Nat) :
    Nat → Bool
  | 0 => false
  | i + 1 =>
    match itemList.get? i with
    | none => false
    | some it =>
      if it.indent = 0 then decide (i ∈ sel)
      else if it.type == .heading then false
      else scanParentSelected itemList sel i

/-- `ItemUtils.isParentSelected`. -/
def isParentSelected (itemList : List Item) (childIndex : Nat)
    (sel : List Nat) : Bool :=
  match itemList.get? childIndex with
  | none => false
  | some it =>
    if it.indent ≠ 1 then false
    else scanParentSelected itemList sel childIndex

/-- `ItemUtils.collectItemsToProcess`. -/
def collectItemsToProcess (itemList : List Item) (sel : List Nat)
    (excludeHeadings : Bool := true) : List Item :=
  (sortAsc sel).foldl
    (fun acc index =>
      match itemList.get? index with
      | none => acc
      | some item =>
        if excludeHeadings && item.type == .heading then acc
        else if item.indent = 1 && isParentSelected itemList index sel then
          acc
        else acc ++ [item])
    []

/-- `ItemUtils.deepCopyItems` with `generateNewIds = true`: structural copy
that assigns fresh ids from the counter. -/
def deepCopyFresh : List Item → Nat → List Item × Nat
  | [], n => ([], n)
  | it :: rest, n =>
    let (copies, n') := deepCopyFresh rest (n + 1)
    ({ it with id := n } :: copies, n')

/-- `ItemUtils.hasParentAbove`. -/
def hasParentAbove (itemList : List Item) : Nat → Bool
  | 0 => false
  | position + 1 =>
    match itemList.get? position with
    | none => false
    | some it =>
      if it.indent = 0 && !(it.type == .heading) then true
      else if it.type == .heading then false
      else hasParentAbove itemList position

/-- `ItemUtils.adjustOrphanedIndent` (returns the adjusted insertion list
instead of mutating it in place). -/
def adjustOrphanedIndent (itemsToInsert : List Item)
    (targetList : List Item) (insertPosition : Nat) : List Item :=
  match itemsToInsert with
  | [] => []
  | first :: rest =>
    if first.indent ≠ 1 then first :: rest
    else if insertPosition = 0 || !hasParentAbove targetList insertPosition
    then { first with indent := 0 } :: rest
    else first :: rest

end ItemUtils

/-! ### SelectionManager -/

/-- Ids captured by `SelectionManager.captureState`. -/
structure Captured where
  selectedIds : List Nat
  activeItemId : Option Nat
  deriving Repr, DecidableEq

/-- `SelectionManager.captureState`. -/
def smCaptureState (s : AppState) : Captured :=
  { selectedIds :=
      s.selectedIndices.foldl
        (fun acc idx =>
          match s.items.get? idx with
          | some it => setAdd acc it.id
          | none => acc) []
    activeItemId :=
      if 0 ≤ s.activeIndex then (s.items.get? s.activeIndex.toNat).map Item.id
      else none }

/-- `SelectionManager.restoreState`. -/
def smRestoreState (s : AppState) (captured : Captured) : AppState :=
  let selected :=
    (s.items.enum.filter (fun p => p.2.id ∈ captured.selectedIds)).map Prod.fst
  let active :=
    match captured.activeItemId with
    | none => s.activeIndex
    | some aid =>
      match jsFindIndex (fun i => i.id == aid) s.items with
      | some newActiveIndex => (newActiveIndex : Int)
      | none => s.activeIndex
  { s with selectedIndices := selected, activeIndex := active }

/-- `SelectionManager.clear`. -/
def smClear (s : AppState) : AppState :=
  { s with selectedIndices := [], activeIndex := -1, anchorIndex := -1 }

/-- `SelectionManager.setSingle`. -/
def smSetSingle (s : AppState) (index : Int) : AppState :=
  { s with
    selectedIndices := if 0 ≤ index then [index.toNat] else []
    activeIndex := index
    anchorIndex := index }

/-- Body of the webview's `selectItem(index)` for a plain (non-toggle,
non-extend) selection: clear out of range, else single-select. -/
def selectItemOp (s : AppState) (index : Int) : AppState :=
  if index < 0 ∨ (s.items.length : Int) ≤ index then smClear s
  else smSetSingle s index

/-- Marker for the source's `selectArchiveHeading()` call sites.  No function
of that name is defined anywhere in the webview script (calling it would
raise a ReferenceError); the call sites are only reachable after a move into
a hidden archive region, which the move guards rule out.  The embedding
records the evident intent: focus moves to the archive header. -/
def selectArchiveHeading (s : AppState) : AppState :=
  { s with isArchiveHeaderSelected := true, isArchiveActive := false }

/-! ### MoveUtils -/

namespace MoveUtils

/-- `MoveUtils.expandSelectionWithChildren`: add the contiguous run of
indent-1 items following each selected indent-0 non-heading item, then sort
ascending. -/
def expandSelectionWithChildren (indices : List Nat) (itemList : List Item) :
    List Nat :=
  let expanded :=
    indices.foldl
      (fun acc idx =>
        match itemList.get? idx with
        | none => acc
        | some item =>
          if item.indent = 0 && !(item.type == .heading) then
            let cnt :=
              ((itemList.drop (idx + 1)).takeWhile
                (fun it => it.indent == 1)).length
            (List.range cnt).foldl (fun a k => setAdd a (idx + 1 + k)) acc
          else acc)
      indices
  sortAsc expanded

/-- `MoveUtils.isContiguous`. -/
def isContiguous : List Nat → Bool
  | [] => true
  | [_] => true
  | a :: b :: rest => b == a + 1 && isContiguous (b :: rest)

/-- `MoveUtils.updateSelectionByIds`. -/
def updateSelectionByIds (s : AppState) (movingIds : List Nat) : AppState :=
  { s with
    selectedIndices :=
      (s.items.enum.filter (fun p => p.2.id ∈ movingIds)).map Prod.fst }

/-- `MoveUtils.checkMovedIntoArchive`. -/
def checkMovedIntoArchive (itemList : List Item) (movingIds : List Nat)
    (archiveHidden : Bool) : Bool :=
  if !archiveHidden then false
  else
    (itemList.foldl
      (fun (st : Bool × Bool) item =>
        let (inArchive, found) := st
        if ItemUtils.isArchiveHeading item then (true, found)
        else if inArchive && item.id ∈ movingIds then (inArchive, true)
        else (inArchive, found))
      (false, false)).2

end MoveUtils

/-! ### HistoryManager -/

/-- Push onto the bounded history stack: `history.push(state)` followed by
`history.shift()` when the cap is exceeded. -/
def capPush (h : List Snapshot) (d : Snapshot) : List Snapshot :=
  let h2 := h ++ [d]
  if MAX_HISTORY_SIZE < h2.length then h2.drop 1 else h2

/-- `HistoryManager._validateSelection` (the part run after undo/redo). -/
def hmValidateSelection (s : AppState) : AppState :=
  let active :=
    if (s.items.length : Int) ≤ s.activeIndex then
      if 0 < s.items.length then (s.items.length : Int) - 1 else -1
    else s.activeIndex
  let sel : List Nat := if 0 ≤ active then [active.toNat] else []
  let anchor := if 0 ≤ active then active else s.anchorIndex
  let archActive :=
    if (s.archivedItems.length : Int) ≤ s.archivedActiveIndex then
      if 0 < s.archivedItems.length then (s.archivedItems.length : Int) - 1
      else -1
    else s.archivedActiveIndex
  let archSel :=
    s.archivedSelectedIndices.filter (fun idx => idx < s.archivedItems.length)
  let (archActive2, archAnchor) :=
    if 0 ≤ archActive then (archActive, archActive)
    else if archSel ≠ [] then
      ((setMin archSel : Int), (setMin archSel : Int))
    else (archActive, -1)
  { s with
    activeIndex := active, selectedIndices := sel, anchorIndex := anchor
    archivedActiveIndex := archActive2, archivedAnchorIndex := archAnchor
    archivedSelectedIndices := archSel }

/-- `HistoryManager.save` (the `isUndoingRedoing` guard is vacuous at the
top level of an operation, where `save` is only ever called). -/
def hmSave (s : AppState) : AppState :=
  { s with history := capPush s.history (docOf s), future := [] }

/-- `HistoryManager.popLast`. -/
def hmPopLast (s : AppState) : AppState :=
  { s with history := s.history.dropLast }

/-- `HistoryManager.undo` (state part; returns the input unchanged when the
history is empty, mirroring the `return false` path). -/
def hmUndo (s : AppState) : AppState :=
  if s.history = [] then s
  else
    let prev := s.history.getLastD ([], [])
    hmValidateSelection
      { s with
        items := prev.1, archivedItems := prev.2
        history := s.history.dropLast
        future := s.future ++ [docOf s] }

/-- `HistoryManager.redo` (state part). -/
def hmRedo (s : AppState) : AppState :=
  if s.future = [] then s
  else
    let next := s.future.getLastD ([], [])
    hmValidateSelection
      { s with
        items := next.1, archivedItems := next.2
        future := s.future.dropLast
        history := s.history ++ [docOf s] }

/-! ### IndentManager -/

/-- `IndentManager.canChangeIndent` (reads the module-level `items`, passed
here explicitly). -/
def canChangeIndent (itemList : List Item) (item : Item) (index : Nat)
    (delta : Int) (newIndent : Int) : Bool :=
  if item.type == .heading then false
  else if newIndent < 0 ∨ 1 < newIndent then false
  else if 0 < delta then
    if index = 0 then false
    else
      match itemList.get? (index - 1) with
      | some prev => !(prev.type == .heading)
      | none => false
  else true

/-- `IndentManager.changeIndent`: apply the per-index indent change over the
ascending selection (each step sees the mutations of earlier steps, exactly
as in the source's in-place loop).  Rendering calls are omitted.  A stale
out-of-range index would make the source throw; the embedding skips it and
the theorems restrict to in-range selections. -/
def changeIndent (delta : Int) (s : AppState) : AppState :=
  let items' :=
    (sortAsc s.selectedIndices).foldl
      (fun acc index =>
        match acc.get? index with
        | none => acc
        | some item =>
          let newIndent : Int := (item.indent : Int) + delta
          if canChangeIndent acc item index delta newIndent then
            listModify (fun it => { it with indent := newIndent.toNat })
              index acc
          else acc)
      s.items
  { s with items := items' }

/-! ### DeleteManager -/

/-- Marker for the kind of deleted item recorded by `deleteByIndices`
(`'parent'` when indent is 0, `'child'` otherwise). -/
inductive DType where
  | parent
  | child
  deriving Repr, DecidableEq

/-- Type tag of a deleted item. -/
def dtypeOf (it : Item) : DType :=
  if it.indent = 0 then .parent else .child

/-- `DeleteManager.collectIndicesToDelete`. -/
def collectIndicesToDelete (itemList : List Item) (indices : List Nat) :
    List Nat :=
  (sortAsc indices).foldl
    (fun acc index =>
      if index ∈ acc then acc
      else
        let acc := setAdd acc index
        match itemList.get? index with
        | none => acc
        | some item =>
          if item.indent = 0 && !(item.type == .heading) then
            let cnt :=
              ((itemList.drop (index + 1)).takeWhile
                (fun it => !(it.indent = 0 || it.type == .heading))).length
            (List.range cnt).foldl (fun a k => setAdd a (index + 1 + k)) acc
          else acc)
    []

/-- Clamp part of `DeleteManager.adjustCursorAfterDeletion`: the common
entry code, which is also the entire behaviour when `deletedTypes` is `[]`
(the recursive call site always passes `[]`). -/
def clampCursor (itemList : List Item) (referenceIndex : Int) : Int :=
  let a := min referenceIndex ((itemList.length : Int) - 1)
  if a < 0 ∧ 0 < itemList.length then 0 else a

/-- `DeleteManager.adjustCursorAfterDeletion`.  The source's recursive call
`adjustCursorAfterDeletion(adjustedIndex - 1, [])` reduces to `clampCursor`
because with no deleted types both repositioning cases are skipped. -/
def adjustCursorAfterDeletion (itemList : List Item) (referenceIndex : Int)
    (deletedTypes : List DType) : Int :=
  let adjustedIndex := clampCursor itemList referenceIndex
  if adjustedIndex < 0 ∨ (itemList.length : Int) ≤ adjustedIndex then
    adjustedIndex
  else
    match itemList.get? adjustedIndex.toNat with
    | none => adjustedIndex
    | some item =>
      let deletedParent := DType.parent ∈ deletedTypes
      let deletedChild := DType.child ∈ deletedTypes
      if deletedParent ∧ ¬deletedChild ∧ item.type = .heading then
        if 0 < adjustedIndex then adjustedIndex - 1 else adjustedIndex
      else if deletedChild ∧ ¬deletedParent ∧
          (item.type = .heading ∨ item.indent = 0) then
        clampCursor itemList (adjustedIndex - 1)
      else adjustedIndex

/-- `DeleteManager.resetSelectionAfterDelete`. -/
def resetSelectionAfterDelete (s : AppState) (referenceIndex : Int)
    (deletedTypes : List DType) : AppState :=
  let active := adjustCursorAfterDeletion s.items referenceIndex deletedTypes
  if 0 ≤ active then
    { s with selectedIndices := [active.toNat], activeIndex := active
             anchorIndex := active }
  else
    { s with selectedIndices := [], activeIndex := active, anchorIndex := -1 }

/-- `DeleteManager.deleteSingle` (render calls omitted). -/
def deleteSingle (s : AppState) (index : Nat) : AppState :=
  if s.items.length ≤ index then s
  else
    match s.items.get? index with
    | none => s
    | some item =>
      let deletedType := dtypeOf item
      let s := { s with items := listRemoveAt s.items index 1 }
      let s := resetSelectionAfterDelete s (index : Int) [deletedType]
      selectItemOp s s.activeIndex

/-- `DeleteManager.deleteMultiple` (render calls omitted). -/
def deleteMultiple (s : AppState) : AppState :=
  if s.selectedIndices = [] then s
  else
    let indicesToDelete := collectIndicesToDelete s.items s.selectedIndices
    let sortedDeleteIndices := sortDesc indicesToDelete
    let deletedTypes :=
      ((sortedDeleteIndices.filterMap (fun i => s.items.get? i)).map
        dtypeOf).reverse
    let items' :=
      sortedDeleteIndices.foldl (fun l i => listRemoveAt l i 1) s.items
    let minDeletedIndex := sortedDeleteIndices.getLastD 0
    let s := { s with items := items' }
    let s := resetSelectionAfterDelete s (minDeletedIndex : Int) deletedTypes
    selectItemOp s s.activeIndex

/-! ### EditingManager and item creation -/

/-- `EditingManager._resetEditingState`. -/
def emResetEditingState (s : AppState) : AppState :=
  { s with editingId := none, isNewItem := false }

/-- `EditingManager._cancelNewItem`:
delete the item, discard the just-pushed history entry, reset editing. -/
def emCancelNewItem (s : AppState) (itemIndex : Nat) : AppState :=
  emResetEditingState (hmPopLast (deleteSingle s itemIndex))

/-- `EditingManager._saveTitle`. -/
def emSaveTitle (s : AppState) (itemIndex : Nat) (newTitle : String) :
    AppState :=
  let s :=
    match s.items.get? itemIndex with
    | none => s
    | some it =>
      if it.title ≠ newTitle then
        let s := if ¬s.isNewItem then hmSave s else s
        { s with
          items := listModify (fun x => { x with title := newTitle })
                     itemIndex s.items }
      else s
  emResetEditingState s

/-- `EditingManager.saveEdit`. -/
def emSaveEdit (s : AppState) (itemIndex : Nat) (newTitle : String) :
    AppState :=
  if newTitle = "" ∧ s.isNewItem then emCancelNewItem s itemIndex
  else if newTitle = "" then
    emResetEditingState (deleteSingle (hmSave s) itemIndex)
  else emSaveTitle s itemIndex newTitle

/-- `EditingManager.cancelEdit`. -/
def emCancelEdit (s : AppState) (itemIndex : Nat) : AppState :=
  if s.isNewItem then emCancelNewItem s itemIndex else emResetEditingState s

/-- `startEditing`. -/
def startEditing (s : AppState) (id : Nat) (isNew : Bool) : AppState :=
  { s with editingId := some id, isNewItem := isNew }

/-- `stopEditing(save)`, with the edit box's current value passed in place
of the DOM input. -/
def stopEditing (s : AppState) (save : Bool) (inputValue : String) :
    AppState :=
  match s.editingId with
  | none => s
  | some eid =>
    match jsFindIndex (fun i => i.id == eid) s.items with
    | none => { s with editingId := none }
    | some itemIndex =>
      let newTitle := jsStrTrim inputValue
      if save then emSaveEdit s itemIndex newTitle
      else emCancelEdit s itemIndex

/-- Upward scan in `addItem`'s heading branch: from `activeIndex - 1` down,
the first index holding indent 0 or a heading (the indent test is checked
first in the source; headings have indent 0, so the heading test is in
practice unreachable). -/
def findHeadingInsert (l : List Item) : Nat → Option Nat
  | 0 => none
  | i + 1 =>
    match l.get? i with
    | none => findHeadingInsert l i
    | some it =>
      if it.indent = 0 then some i
      else if it.type == .heading then some i
      else findHeadingInsert l i

/-- Insert-position computation of `addItem` (the `insertIndex === null`
branch). -/
def addItemInsertIndex (type : ItemType) (s : AppState) : Nat :=
  if 0 ≤ s.activeIndex then
    if type = .heading then
      let isChildActive : Bool :=
        match s.items.get? s.activeIndex.toNat with
        | some it => it.indent == 1
        | none => false
      if isChildActive then
        (findHeadingInsert s.items s.activeIndex.toNat).getD 0
      else s.activeIndex.toNat
    else s.activeIndex.toNat + 1
  else s.items.length

/-- Smart-indent computation of `addItem` (the `indent === null` branch
followed by the final clamps). -/
def addItemIndent (type : ItemType) (s : AppState) : Nat :=
  let indent : Nat :=
    if type = .heading then 0
    else
      match (if 0 ≤ s.activeIndex then s.items.get? s.activeIndex.toNat
             else none) with
      | none => 0
      | some selectedItem =>
        if selectedItem.indent = 0 then
          match s.items.get? (s.activeIndex.toNat + 1) with
          | some nxt => if nxt.indent = 1 then 1 else 0
          | none => 0
        else selectedItem.indent
  if type = .heading then 0 else min indent 1

/-- `addItem(type)` with the default `insertIndex = null`, `indent = null`
arguments (render/focus calls omitted).  Mirrors the source order: snapshot
first, compute the insert position, bail out when a heading would land
after the Archive sentinel (note this leaves the snapshot behind), compute
the smart indent, insert, select, start editing. -/
def addItem (type : ItemType) (s0 : AppState) : AppState :=
  let s := hmSave s0
  let newId := s.nextId
  let insertIndex := addItemInsertIndex type s
  let blocked : Bool :=
    type == .heading &&
      (match ItemUtils.findArchiveIndex s.items with
       | some archiveIndex => archiveIndex < insertIndex
       | none => false)
  if blocked then s
  else
    let newItem : Item :=
      { id := newId, type := type, title := "", indent := addItemIndent type s
        isChecked := false, note := "" }
    let s := { s with items := listInsertAt s.items insertIndex [newItem]
                      nextId := s.nextId + 1 }
    let s := selectItemOp s (insertIndex : Int)
    startEditing s newId true

/-! ### Move operations -/

/-- Direction argument of `moveItem`. -/
inductive Direction where
  | up
  | down
  deriving Repr, DecidableEq

/-- Downward index scan (`for (let i = start; i >= 0; i--)`) returning the
first index whose item satisfies `p`. -/
def scanDownFrom (l : List Item) (p : Item → Bool) : Nat → Option Nat
  | 0 =>
    match l.get? 0 with
    | some it => if p it then some 0 else none
    | none => none
  | i + 1 =>
    match l.get? (i + 1) with
    | some it => if p it then some (i + 1) else scanDownFrom l p i
    | none => scanDownFrom l p i

/-- `moveMultipleUp`. -/
def moveMultipleUp (s : AppState) (start count : Nat)
    (movingItems : List Item) (movingIds : List Nat) : AppState :=
  if start = 0 then s
  else
    let targetIndex := start - 1
    match s.items.get? targetIndex, s.items.get? start with
    | some targetItem, some startItem =>
      let proceed :=
        if startItem.indent = 0 then true
        else targetItem.indent = 1
      if ¬proceed then s
      else
        let swapStart :=
          if startItem.indent = 0 ∧ targetItem.indent = 1 then
            (scanDownFrom s.items
              (fun it => it.indent == 0 || it.type == .heading)
              targetIndex).getD targetIndex
          else targetIndex
        let swapCount := start - swapStart
        let items' :=
          listInsertAt (listRemoveAt s.items start count) swapStart
            movingItems
        let s := { s with items := items' }
        let s := MoveUtils.updateSelectionByIds s movingIds
        { s with activeIndex := s.activeIndex - (swapCount : Int) }
    | _, _ => s

/-- `moveMultipleDown`. -/
def moveMultipleDown (s : AppState) (start count : Nat)
    (movingItems : List Item) (movingIds : List Nat) : AppState :=
  if s.items.length ≤ start + count then s
  else
    match s.items.get? (start + count), s.items.get? start with
    | some nextItem, some startItem =>
      if (s.items.drop (start + count)).any ItemUtils.isArchiveHeading then s
      else
        let swapCount :=
          if startItem.indent = 0 then
            1 + ((s.items.drop (start + count + 1)).takeWhile
                  (fun it => !(it.indent = 0 || it.type == .heading))).length
          else if nextItem.indent ≠ 1 then 0
          else 1
        if swapCount = 0 then s
        else
          let items' :=
            listInsertAt (listRemoveAt s.items start count)
              (start + swapCount) movingItems
          let s := { s with items := items' }
          let s := MoveUtils.updateSelectionByIds s movingIds
          let s := { s with activeIndex := s.activeIndex + (swapCount : Int) }
          if MoveUtils.checkMovedIntoArchive s.items movingIds
              s.isArchiveHidden then
            selectArchiveHeading s
          else s
    | _, _ => s

/-- `moveMultipleItems`. -/
def moveMultipleItems (direction : Direction) (s : AppState) : AppState :=
  let indices := sortAsc s.selectedIndices
  let finalIndices := MoveUtils.expandSelectionWithChildren indices s.items
  match finalIndices with
  | [] => s
  | f0 :: _ =>
    match s.items.get? f0 with
    | none => s
    | some it0 =>
      if it0.indent = 1 ∧
          finalIndices.any
            (fun idx => (s.items.get? idx).any (fun it => it.indent == 0))
      then s
      else if ¬MoveUtils.isContiguous finalIndices then s
      else
        let start := f0
        let count := finalIndices.length
        let movingItems := (s.items.drop start).take count
        let movingIds := movingItems.map Item.id
        match direction with
        | .up => moveMultipleUp s start count movingItems movingIds
        | .down => moveMultipleDown s start count movingItems movingIds

/-- `moveSingleUp`. -/
def moveSingleUp (s : AppState) (item : Item) (originalIndex count : Nat)
    (movingItems : List Item) : AppState :=
  if originalIndex = 0 then s
  else
    let targetIndex := originalIndex - 1
    if item.indent = 1 then
      match s.items.get? targetIndex with
      | none => s
      | some t =>
        if t.indent ≠ 1 then s
        else
          let items' :=
            listInsertAt (listRemoveAt s.items originalIndex 1) targetIndex
              [item]
          selectItemOp { s with items := items' } (targetIndex : Int)
    else
      let siblingIndex :=
        scanDownFrom s.items
          (fun c =>
            if item.type == .heading then c.type == .heading
            else c.indent == 0)
          targetIndex
      match siblingIndex with
      | none => s
      | some si =>
        let items' :=
          listInsertAt (listRemoveAt s.items originalIndex count) si
            movingItems
        selectItemOp { s with items := items' } (si : Int)

/-- `moveSingleDown`. -/
def moveSingleDown (s : AppState) (item : Item) (originalIndex count : Nat)
    (movingItems : List Item) : AppState :=
  let nextIndex := originalIndex + count
  if s.items.length ≤ nextIndex then s
  else
    match s.items.get? nextIndex with
    | none => s
    | some nextItem =>
      if ItemUtils.isArchiveHeading nextItem then s
      else if item.indent = 1 then
        if nextItem.indent ≠ 1 then s
        else
          let items' :=
            listInsertAt (listRemoveAt s.items originalIndex 1)
              (originalIndex + 1) [item]
          selectItemOp { s with items := items' } ((originalIndex + 1 : Nat) : Int)
      else
        let nextBlockCount :=
          if nextItem.type = .heading ∧ item.type = .heading then
            1 + ((s.items.drop (nextIndex + 1)).takeWhile
                  (fun it => !(it.type == .heading))).length
          else if nextItem.indent = 0 then
            1 + ItemUtils.countChildren (s.items.drop (nextIndex + 1))
          else 1
        let items' :=
          listInsertAt (listRemoveAt s.items originalIndex count)
            (originalIndex + nextBlockCount) movingItems
        let s := { s with items := items' }
        let newPosition := originalIndex + nextBlockCount
        let inArchive : Bool :=
          match newPosition with
          | 0 => false
          | np + 1 =>
            match scanDownFrom s.items (fun it => it.type == .heading) np with
            | some hi =>
              ((s.items.get? hi).any fun it => it.title == "Archive") &&
                s.isArchiveHidden
            | none => false
        if inArchive then selectArchiveHeading s
        else selectItemOp s (newPosition : Int)

/-- `moveSingleItem`. -/
def moveSingleItem (direction : Direction) (s : AppState) : AppState :=
  match s.items.get? s.activeIndex.toNat with
  | none => s
  | some item =>
    let originalIndex := s.activeIndex.toNat
    let count := ItemUtils.blockCount s.items originalIndex
    let movingItems := (s.items.drop originalIndex).take count
    match direction with
    | .up => moveSingleUp s item originalIndex count movingItems
    | .down => moveSingleDown s item originalIndex count movingItems

/-- `moveItem(direction)`: guard on a usable active item, snapshot, then
dispatch to the single or multi mover. -/
def moveItem (direction : Direction) (s : AppState) : AppState :=
  if s.activeIndex < 0 then s
  else if ItemUtils.isArchiveHeadingO (s.items.get? s.activeIndex.toNat) then
    s
  else
    let s := hmSave s
    if 1 < s.selectedIndices.length then moveMultipleItems direction s
    else moveSingleItem direction s

/-! ### Clipboard paste, archive transfer, and heading relocation -/

/-- Insert-position computation of `pasteItems`: after the active parent's
block (child-count adjusted), else right after the active item, else at
the list end; then clamped back to the Archive sentinel's position when it
would land past it.  A stale `activeIndex` at or past the list length would
make the source throw; the embedding falls back to `activeIndex + 1` there
and the theorems restrict to in-range states. -/
def pasteInsertIndex (s : AppState) : Nat :=
  let insertIndex : Nat :=
    if 0 ≤ s.activeIndex then
      match s.items.get? s.activeIndex.toNat with
      | none => s.activeIndex.toNat + 1
      | some activeItem =>
        if activeItem.indent = 0 then
          s.activeIndex.toNat + 1 +
            ItemUtils.getChildCount s.items s.activeIndex.toNat
        else s.activeIndex.toNat + 1
    else s.items.length
  match ItemUtils.findArchiveIndex s.items with
  | some archiveIndex =>
    if archiveIndex < insertIndex then archiveIndex else insertIndex
  | none => insertIndex

/-- `pasteItems` (render and notification calls omitted). -/
def pasteItems (s : AppState) : AppState :=
  if s.clipboard = [] then s
  else
    let s := hmSave s
    let insertIndex := pasteInsertIndex s
    let pastedItems := (ItemUtils.deepCopyFresh s.clipboard s.nextId).1
    let nextId' := (ItemUtils.deepCopyFresh s.clipboard s.nextId).2
    let pastedItems :=
      ItemUtils.adjustOrphanedIndent pastedItems s.items insertIndex
    let s := { s with items := listInsertAt s.items insertIndex pastedItems
                      nextId := nextId' }
    let s :=
      { s with
        selectedIndices :=
          (List.range pastedItems.length).map (fun k => insertIndex + k)
        activeIndex := (insertIndex : Int)
        anchorIndex := (insertIndex : Int) }
    selectItemOp s (insertIndex : Int)

/-- Per-item body of the `moveToArchive` loop: locate the item by id, cut
its block out of the remaining items, force each moved item checked, and
append the block to the moved accumulator. -/
def moveToArchiveStep (acc : List Item × List Item) (item : Item) :
    List Item × List Item :=
  let cur := acc.1
  let moved := acc.2
  match jsFindIndex (fun i => i.id == item.id) cur with
  | none => acc
  | some index =>
    let movingItems := (ItemUtils.getItemWithChildren cur index).1
    let count := (ItemUtils.getItemWithChildren cur index).2
    let cur' := listRemoveAt cur index count
    let movingItems :=
      movingItems.map (fun mi => { mi with isChecked := true })
    (cur', moved ++ movingItems)

/-- `moveToArchive` (render and notification calls omitted).  The source
sorts `itemsToMove` descending by current index; the collection is built in
ascending index order, so that sort is exactly `reverse`. -/
def moveToArchive (s : AppState) : AppState :=
  let s :=
    if s.selectedIndices = [] ∧ 0 ≤ s.activeIndex then
      { s with selectedIndices := setAdd s.selectedIndices s.activeIndex.toNat }
    else s
  if s.selectedIndices = [] then s
  else
    let s := hmSave s
    let itemsToMove :=
      ItemUtils.collectItemsToProcess s.items s.selectedIndices true
    if itemsToMove = [] then s
    else
      let minMovedIndex := setMin s.selectedIndices
      let deletedTypes :=
        s.selectedIndices.filterMap (fun idx => (s.items.get? idx).map dtypeOf)
      let itemsToMove := itemsToMove.reverse
      let items' := (itemsToMove.foldl moveToArchiveStep (s.items, [])).1
      let movedItems := (itemsToMove.foldl moveToArchiveStep (s.items, [])).2
      let s := { s with items := items'
                        archivedItems := movedItems ++ s.archivedItems }
      let active : Int :=
        if s.items.length ≤ minMovedIndex ∧ 0 < s.items.length then
          (s.items.length : Int) - 1
        else if 0 < s.items.length then (minMovedIndex : Int)
        else -1
      let active := adjustCursorAfterDeletion s.items active deletedTypes
      { s with activeIndex := active
               selectedIndices := if 0 ≤ active then [active.toNat] else []
               anchorIndex := -1 }

/-- Per-index body of the `moveFromArchive` removal loop (descending
indices): splice the archived item out, force it unchecked, collect it. -/
def restoreRemoveStep (acc : List Item × List Item) (index : Nat) :
    List Item × List Item :=
  let cur := acc.1
  let moved := acc.2
  match cur.get? index with
  | some item =>
    (listRemoveAt cur index 1, moved ++ [{ item with isChecked := false }])
  | none => acc

/-- `moveFromArchive` (render and notification calls omitted). -/
def moveFromArchive (s : AppState) : AppState :=
  if s.archivedSelectedIndices = [] then s
  else
    let s := hmSave s
    let indicesToRestore :=
      (sortAsc s.archivedSelectedIndices).foldl
        (fun acc index =>
          if index ∈ acc then acc
          else
            match s.archivedItems.get? index with
            | none => acc
            | some item =>
              if item.indent = 0 then
                let cnt :=
                  ((s.archivedItems.drop (index + 1)).takeWhile
                    (fun it => !(it.indent == 0))).length
                (List.range (cnt + 1)).foldl
                  (fun a k => setAdd a (index + k)) acc
              else
                let parentIndex :=
                  match index with
                  | 0 => none
                  | i + 1 =>
                    scanDownFrom s.archivedItems (fun it => it.indent == 0) i
                match parentIndex with
                | some pi =>
                  let cnt :=
                    ((s.archivedItems.drop (pi + 1)).takeWhile
                      (fun it => !(it.indent == 0))).length
                  (List.range (cnt + 1)).foldl
                    (fun a k => setAdd a (pi + k)) acc
                | none => setAdd acc index)
        []
    let indicesToRemove := sortDesc indicesToRestore
    let arch' :=
      (indicesToRemove.foldl restoreRemoveStep (s.archivedItems, [])).1
    let movedItems :=
      (indicesToRemove.foldl restoreRemoveStep (s.archivedItems, [])).2
    let s := { s with archivedItems := arch'
                      items := s.items ++ movedItems.reverse }
    let s := { s with archivedSelectedIndices := [], isArchiveActive := false }
    let startIndex := s.items.length - movedItems.length
    { s with
      selectedIndices :=
        (List.range movedItems.length).map (fun k => startIndex + k)
      activeIndex := (startIndex : Int)
      anchorIndex := (startIndex : Int) }

/-- Result of the next-heading search in `moveToNextHeading`: the loop
either hits the Archive sentinel (the whole item is skipped), finds no
heading, or finds one at an index. -/
inductive HeadingScan where
  | archiveHit
  | notFound
  | found (i : Nat)
  deriving Repr, DecidableEq

/-- Scan forward from `start` for the first heading. -/
def scanNextHeadingAux : List Item → Nat → HeadingScan
  | [], _ => .notFound
  | it :: rest, i =>
    if it.type == .heading then
      if ItemUtils.isArchiveHeading it then .archiveHit else .found i
    else scanNextHeadingAux rest (i + 1)

/-- Forward heading search over `l` starting at absolute index `start`. -/
def scanNextHeading (l : List Item) (start : Nat) : HeadingScan :=
  scanNextHeadingAux (l.drop start) start

/-- `moveToNextHeading` (render/scroll/animation omitted). -/
def moveToNextHeading (s : AppState) : AppState :=
  let s :=
    if s.selectedIndices = [] ∧ 0 ≤ s.activeIndex then
      { s with selectedIndices := setAdd s.selectedIndices s.activeIndex.toNat }
    else s
  if s.selectedIndices = [] then s
  else
    let s := hmSave s
    let captured := smCaptureState s
    let itemsToMove :=
      (ItemUtils.collectItemsToProcess s.items s.selectedIndices true).reverse
    let (items', anyMoved) :=
      itemsToMove.foldl
        (fun (acc : List Item × Bool) item =>
          let (cur, _) := acc
          match jsFindIndex (fun i => i.id == item.id) cur with
          | none => acc
          | some index =>
            let (movingItems, count) := ItemUtils.getItemWithChildren cur index
            match scanNextHeading cur (index + count) with
            | .archiveHit => acc
            | .notFound => acc
            | .found nextHeadingIndex =>
              let movingItems :=
                if item.indent = 1 then
                  match movingItems with
                  | m0 :: rest => { m0 with indent := 0 } :: rest
                  | [] => movingItems
                else movingItems
              let cur' := listRemoveAt cur index count
              let insertIndex := nextHeadingIndex - count + 1
              (listInsertAt cur' insertIndex movingItems, true))
        (s.items, false)
    if ¬anyMoved then s
    else
      let s := { s with items := items' }
      let s := smRestoreState s captured
      let hitArchive :=
        MoveUtils.checkMovedIntoArchive s.items captured.selectedIds
          s.isArchiveHidden
      if hitArchive then selectArchiveHeading s else s

/-- `moveToPrevHeading` (render/scroll/animation omitted). -/
def moveToPrevHeading (s : AppState) : AppState :=
  let s :=
    if s.selectedIndices = [] ∧ 0 ≤ s.activeIndex then
      { s with selectedIndices := setAdd s.selectedIndices s.activeIndex.toNat }
    else s
  if s.selectedIndices = [] then s
  else
    let s := hmSave s
    let captured := smCaptureState s
    let itemsToMove :=
      (ItemUtils.collectItemsToProcess s.items s.selectedIndices true).reverse
    let (items', anyMoved) :=
      itemsToMove.foldl
        (fun (acc : List Item × Bool) item =>
          let (cur, _) := acc
          match jsFindIndex (fun i => i.id == item.id) cur with
          | none => acc
          | some index =>
            let (movingItems, count) := ItemUtils.getItemWithChildren cur index
            let headingsAbove :=
              (((cur.take index).enum.filter
                  (fun p => p.2.type == .heading)).map Prod.fst).reverse
            let insertIndex :=
              match headingsAbove with
              | [] => 0
              | [h0] => h0 + 1
              | _ :: h1 :: _ => h1 + 1
            if insertIndex = index then acc
            else
              let movingItems :=
                if item.indent = 1 then
                  match movingItems with
                  | m0 :: rest => { m0 with indent := 0 } :: rest
                  | [] => movingItems
                else movingItems
              let cur' := listRemoveAt cur index count
              (listInsertAt cur' insertIndex movingItems, true))
        (s.items, false)
    if ¬anyMoved then s
    else
      let s := { s with items := items' }
      smRestoreState s captured

/-- Single-click selection of an archived item (the archived-item
`onmousedown` handler's plain branch, renderArchiveSection): deselect the
main list, activate the archive, single-select the clicked index. -/
def archiveSelectSingle (s : AppState) (index : Nat) : AppState :=
  { s with selectedIndices := []
           activeIndex := -1
           anchorIndex := -1
           isArchiveActive := true
           isArchiveHeaderSelected := false
           archivedSelectedIndices := [index]
           archivedActiveIndex := (index : Int)
           archivedAnchorIndex := (index : Int) }

/-! ### Markdown serializer (parseMarkdown / stringifyItems)

The serializer module works on JavaScript strings; it is embedded at the
character level (`List Char`), with JS string primitives (`split('\n')`,
`trim()`, `startsWith`, the todo-line regex) modelled as explicit list
functions, so that the round-trip claim really is byte-for-byte equality. -/

namespace MD

/-- Text as a character list. -/
abbrev Chars := List Char

/-- JS `content.split('\n')`. -/
def splitNl : Chars → List Chars
  | [] => [[]]
  | c :: rest =>
    match splitNl rest with
    | [] => [[]]
    | l :: ls => if c == '\n' then [] :: l :: ls else (c :: l) :: ls

/-- JS `lines.join('\n')` (used for `currentNote.join('\n')`). -/
def intercalNl : List Chars → Chars
  | [] => []
  | [l] => l
  | l :: ls => l ++ '\n' :: intercalNl ls

/-- The item records built by the `ItemTodo` / `ItemHeading` classes in
the models segment of `src/src/SidebarProvider.ts`: `type`, `title`,
`indent`, todo `isChecked`, free-text `note` (initialised empty).  The
random `id` and the numeric display `index` the constructors also set play
no role in serialization and are omitted; headings carry no `isChecked`
property, fixed here at `false`. -/
structure MDItem where
  type : ArchyTask.ItemType
  title : Chars
  indent : Nat
  isChecked : Bool
  note : Chars
  deriving Repr, DecidableEq

/-- Heading constructor (`new ItemHeading(title, idx)`: `super(0, ...)` forces indent 0). -/
def mkHeading (title : Chars) : MDItem :=
  { type := .heading, title := title, indent := 0, isChecked := false
    note := [] }

/-- Todo constructor (`new ItemTodo(indent, title, idx, isChecked)`). -/
def mkTodo (indent : Nat) (title : Chars) (isChecked : Bool) : MDItem :=
  { type := .todo, title := title, indent := indent, isChecked := isChecked
    note := [] }

/-- Mutable locals of the `parseMarkdown` line loop.  The source's
`lastItem` reference always aliases the most recently pushed element of one
of the two output arrays, recorded here as `lastTarget`
(`some true` = main list, `some false` = archive list). -/
structure PState where
  items : List MDItem
  archivedItems : List MDItem
  collectingNote : Bool
  currentNote : List Chars
  lastTarget : Option Bool
  inArchive : Bool
  deriving Repr, DecidableEq

/-- Update the last element of a list (the `lastItem.note = ...`
mutation). -/
def modifyLast (f : α → α) : List α → List α
  | [] => []
  | [x] => [f x]
  | x :: xs => x :: modifyLast f xs

/-- The todo-line regex `^(\s*)-\s\[([ x])\]\s(.*)$`: a maximal leading
whitespace run (greedy `\s*`, unambiguous since `-` is not whitespace),
literal `-`, one whitespace, `[`, a space or `x`, `]`, one whitespace, then
the title.  JS `.` matches no line terminator, so a title containing CR or
the line/paragraph separators U+2028/U+2029 fails the anchored match. -/
def matchTodo (line : Chars) : Option (Chars × Bool × Chars) :=
  let ws := line.takeWhile isJsWs
  match line.dropWhile isJsWs with
  | '-' :: s1 :: '[' :: c :: ']' :: s2 :: title =>
    if isJsWs s1 && isJsWs s2 && (c == ' ' || c == 'x') &&
        !(title.contains '\r') && !(title.contains '\u2028') &&
        !(title.contains '\u2029') then
      some (ws, c == 'x', title)
    else none
  | _ => none

/-- Indent from the regex's whitespace capture: tab count when any tab is
present, else length divided by four. -/
def indentOfWs (ws : Chars) : Nat :=
  if ws.contains '\t' then ws.count '\t' else ws.length / 4

/-- One iteration of the `parseMarkdown` line loop. -/
def processLine (st : PState) (line : Chars) : PState :=
  let trimmedLine := jsTrim line
  if ("```plane".data).isPrefixOf trimmedLine then
    { st with collectingNote := true, currentNote := [] }
  else if st.collectingNote then
    if ("```".data).isPrefixOf trimmedLine then
      let note := intercalNl st.currentNote
      let st' := { st with collectingNote := false }
      match st.lastTarget with
      | none => st'
      | some true =>
        { st' with
          items := modifyLast (fun it => { it with note := note }) st'.items }
      | some false =>
        { st' with
          archivedItems :=
            modifyLast (fun it => { it with note := note })
              st'.archivedItems }
    else { st with currentNote := st.currentNote ++ [trimmedLine] }
  else if ("## ".data).isPrefixOf trimmedLine then
    let title := jsTrim (trimmedLine.drop 3)
    if title = "Archive".data then { st with inArchive := true }
    else
      { st with inArchive := false
                items := st.items ++ [mkHeading title]
                lastTarget := some true }
  else
    match matchTodo line with
    | some (ws, isChecked, title) =>
      let indent := indentOfWs ws
      let indent := if 1 < indent then 1 else indent
      if st.inArchive then
        { st with
          archivedItems := st.archivedItems ++ [mkTodo indent title true]
          lastTarget := some false }
      else
        { st with items := st.items ++ [mkTodo indent title isChecked]
                  lastTarget := some true }
    | none => st

/-- Initial loop state. -/
def initPState : PState :=
  { items := [], archivedItems := [], collectingNote := false
    currentNote := [], lastTarget := none, inArchive := false }

/-- Result pair of `parseMarkdown`. -/
structure ParseResult where
  items : List MDItem
  archivedItems : List MDItem
  deriving Repr, DecidableEq

/-- The `parseMarkdown` loop over an explicit line list. -/
def parseMarkdownLines (lines : List Chars) : PState :=
  lines.foldl processLine initPState

/-- `parseMarkdown`. -/
def parseMarkdown (content : Chars) : ParseResult :=
  let st := parseMarkdownLines (splitNl content)
  { items := st.items, archivedItems := st.archivedItems }

/-- `'\t'.repeat(indent)`. -/
def tabs (n : Nat) : Chars := List.replicate n '\t'

/-- Note block emission shared by main and archive serialization
(`item.note && item.note.trim().length > 0` guard, then a 4-space-indented
fenced block). -/
def noteChunk (note : Chars) : Chars :=
  if jsTrim note = [] then []
  else
    "    ```plane\n".data ++
      ((splitNl note).map (fun l => "    ".data ++ l ++ ['\n'])).flatten ++
      "    ```\n".data

/-- Serialization of one main-list item in `stringifyItems`. -/
def stringifyMainItem (item : MDItem) : Chars :=
  (if item.type == .heading then "## ".data ++ item.title ++ ['\n']
   else
     tabs item.indent ++ "- [".data ++
       [if item.isChecked then 'x' else ' '] ++ "] ".data ++ item.title ++
       ['\n']) ++
    noteChunk item.note

/-- Serialization of one archive-list item (always written checked). -/
def stringifyArchItem (item : MDItem) : Chars :=
  (if item.type == .todo then
     tabs item.indent ++ "- [x] ".data ++ item.title ++ ['\n']
   else []) ++
    noteChunk item.note

/-- `stringifyItems`. -/
def stringifyItems (items archivedItems : List MDItem) : Chars :=
  (items.map stringifyMainItem).flatten ++
    (if archivedItems.length = 0 then []
     else "## Archive\n".data ++
       (archivedItems.map stringifyArchItem).flatten)

/-! #### The document class of the round-trip claim

A document made only of heading lines, indent-0/1 todo lines and attached
note blocks, written in the dialect of spec §6: `## title` headings,
tab-indented `- [ ]` / `- [x]` todo lines, notes as 4-space-indented
fenced `plane` blocks following their item, the archive section (when
present) last, archived todos written checked.  Every line ends in a
newline. -/

/-- A todo entry of the grammar, with its optional note (a note is a list
of content lines; `[]` means no note block). -/
structure GTodo where
  indent : Nat
  checked : Bool
  title : Chars
  note : List Chars
  deriving Repr, DecidableEq

/-- A main-section entry: a heading or a todo, each with optional note. -/
inductive GEntry where
  | ghead (title : Chars) (note : List Chars)
  | gtodo (t : GTodo)
  deriving Repr, DecidableEq

/-- A document: main entries followed by the optional archive section. -/
structure GDoc where
  main : List GEntry
  archive : List GTodo
  deriving Repr, DecidableEq

/-- Well-formed note content line: single-line, written exactly as the
serializer would re-emit it (no surrounding whitespace), and not a fence. -/
def wfNoteLine (l : Chars) : Bool :=
  !(l.contains '\n') && jsTrim l == l && !(("```".data).isPrefixOf l)

/-- Well-formed note: all lines well formed; if the note exists its first
and last lines are nonempty (otherwise the parsed note would not survive
the serializer's `trim().length > 0` guard). -/
def wfNote (n : List Chars) : Bool :=
  n.all wfNoteLine &&
    (n.isEmpty || (n.headD [] != [] && n.getLastD [] != []))

/-- Well-formed todo title: free of every line terminator (JS `.` matches
neither LF, CR nor U+2028/U+2029). -/
def wfTodoTitle (t : Chars) : Bool :=
  !(t.contains '\n') && !(t.contains '\r') &&
    !(t.contains '\u2028') && !(t.contains '\u2029')

/-- Well-formed heading title: single-line, trimmed, nonempty, and not the
reserved sentinel title. -/
def wfHeadTitle (t : Chars) : Bool :=
  !(t.contains '\n') && jsTrim t == t && !t.isEmpty && t != "Archive".data

/-- Well-formed todo entry. -/
def wfGTodo (g : GTodo) : Bool :=
  g.indent ≤ 1 && wfTodoTitle g.title && wfNote g.note

/-- Well-formed main entry. -/
def wfEntry : GEntry → Bool
  | .ghead t note => wfHeadTitle t && wfNote note
  | .gtodo g => wfGTodo g

/-- Well-formed document. -/
def wfDoc (d : GDoc) : Bool :=
  d.main.all wfEntry && d.archive.all wfGTodo

/-- Rendered lines of a note block. -/
def renderNoteLines (note : List Chars) : List Chars :=
  if note.isEmpty then []
  else
    "    ```plane".data ::
      (note.map (fun l => "    ".data ++ l) ++ ["    ```".data])

/-- Rendered lines of one main entry. -/
def renderEntryLines : GEntry → List Chars
  | .ghead t note => ("## ".data ++ t) :: renderNoteLines note
  | .gtodo g =>
    (tabs g.indent ++ "- [".data ++ [if g.checked then 'x' else ' '] ++
        "] ".data ++ g.title) :: renderNoteLines g.note

/-- Rendered lines of one archive entry. -/
def renderArchLines (g : GTodo) : List Chars :=
  (tabs g.indent ++ "- [x] ".data ++ g.title) :: renderNoteLines g.note

/-- All lines of a document. -/
def docLines (d : GDoc) : List Chars :=
  (d.main.map renderEntryLines).flatten ++
    (if d.archive.isEmpty then []
     else "## Archive".data :: (d.archive.map renderArchLines).flatten)

/-- Join lines, terminating each with a newline. -/
def joinNl (lines : List Chars) : Chars :=
  (lines.map (· ++ ['\n'])).flatten

/-- The document's text. -/
def docText (d : GDoc) : Chars := joinNl (docLines d)

/-- Item that parsing a main entry produces. -/
def entryMDItem : GEntry → MDItem
  | .ghead t note => { mkHeading t with note := intercalNl note }
  | .gtodo g =>
    { mkTodo g.indent g.title g.checked with note := intercalNl g.note }

/-- Item that parsing an archive entry produces. -/
def archMDItem (g : GTodo) : MDItem :=
  { mkTodo g.indent g.title true with note := intercalNl g.note }

end MD

/-! ### Properties under verification -/

/-- The spec's section-start invariant, stated over a single list: no
indent-1 todo at index 0 and none immediately after a heading. -/
def sectionStartOrphanFree (l : List Item) : Bool :=
  (match l with
   | [] => true
   | first :: _ => !(first.type == .todo && first.indent == 1)) &&
    (l.zip (l.drop 1)).all
      (fun p => !(p.1.type == .heading && p.2.type == .todo &&
        p.2.indent == 1))

/-! #### Sample items used by the concrete scenarios -/

/-- Heading titled A. -/
def exHeadA : Item :=
  { id := 1, type := .heading, title := "A", indent := 0, isChecked := false
    note := "" }

/-- Parent todo titled x. -/
def exTodoX : Item :=
  { id := 2, type := .todo, title := "x", indent := 0, isChecked := false
    note := "" }

/-- Child todo titled y. -/
def exTodoY : Item :=
  { id := 3, type := .todo, title := "y", indent := 1, isChecked := false
    note := "" }

/-- A lone parent todo titled a. -/
def exTodoA : Item :=
  { id := 1, type := .todo, title := "a", indent := 0, isChecked := false
    note := "" }

/-- The C3 starting state over an arbitrary pre-existing archive list. -/
def c3State (priorArchive : List Item) : AppState :=
  { AppState.empty with
    items := [exHeadA, exTodoX, exTodoY]
    archivedItems := priorArchive
    activeIndex := 1
    anchorIndex := 1
    selectedIndices := [1] }

/-- C3.  Archiving the parent x (index 1) of
[heading A, todo-0 x, todo-1 y] moves the whole block: the active list
becomes [heading A] and the archive list becomes the two checked todos, in
order, prepended before any prior archive content. -/
theorem c3_archive_scenario (priorArchive : List Item) :
    (moveToArchive (c3State priorArchive)).items = [exHeadA] ∧
      (moveToArchive (c3State priorArchive)).archivedItems =
        [{ exTodoX with isChecked := true },
         { exTodoY with isChecked := true }] ++ priorArchive := by
  exact ⟨rfl, rfl⟩

/-- The C5 starting state: a single todo, selected; there is no heading
below it, so neither relocation can move anything. -/
def c5State : AppState :=
  { AppState.empty with
    items := [exTodoA]
    activeIndex := 0
    anchorIndex := 0
    selectedIndices := [0] }

/-- C5.  A zero-move `moveToNextHeading` / `moveToPrevHeading` is NOT a
history no-op: both leave the items untouched yet push a fresh snapshot
(pushed by `saveState()` before the per-item loop and never rolled back),
contradicting the spec's requirement that no history entry be left. -/
theorem c5_zero_move_leaves_snapshot :
    (moveToNextHeading c5State).items = c5State.items ∧
      (moveToNextHeading c5State).history =
        c5State.history ++ [docOf c5State] ∧
      (moveToPrevHeading c5State).items = c5State.items ∧
      (moveToPrevHeading c5State).history =
        c5State.history ++ [docOf c5State] := by
  refine ⟨by decide, by decide, by decide, by decide⟩

/-- The C1 witnessing run: starting from the empty outline, create parent
P and child c (via `addItem` plus title commit), indent c under P (the
Tab handler: snapshot, then `changeIndent 1`), archive the lone child c,
delete P (the Delete handler: snapshot, then `deleteItems`), click-select
archive index 0 and restore it. -/
def c1Run : AppState :=
  let s1 := stopEditing (addItem .todo AppState.empty) true "P"
  let s2 := stopEditing (addItem .todo s1) true "c"
  let s3 := changeIndent 1 (hmSave s2)
  let s4 := moveToArchive s3
  let s5 := deleteMultiple (hmSave s4)
  moveFromArchive (archiveSelectSingle s5 0)

/-- C1.  The section-start invariant is not preserved by the public
operations: the `c1Run` sequence of operations, starting from the empty
outline, ends with the active list equal to a single indent-1 todo —
an indent-1 todo at index 0.  `moveFromArchive` appends restored items
with their indent preserved and performs no orphan repair. -/
theorem c1_orphan_reachable :
    c1Run.items =
      [{ id := 1, type := .todo, title := "c", indent := 1
         isChecked := false, note := "" }] ∧
      sectionStartOrphanFree c1Run.items = false := by
  exact ⟨by decide, by decide⟩

/-! #### List surgery lemmas -/

theorem listInsertAt_zero (l : List α) (xs : List α) :
    listInsertAt l 0 xs = xs ++ l := by
  simp [listInsertAt]

theorem listInsertAt_cons_succ (a : α) (l : List α) (i : Nat)
    (xs : List α) : listInsertAt (a :: l) (i + 1) xs = a :: listInsertAt l i xs := by
  simp [listInsertAt]

theorem listRemoveAt_cons_succ (a : α) (l : List α) (i c : Nat) :
    listRemoveAt (a :: l) (i + 1) c = a :: listRemoveAt l i c := by
  unfold listRemoveAt
  rw [show i + 1 + c = (i + c) + 1 by omega]
  rfl

theorem listRemoveAt_listInsertAt_one (l : List α) (i : Nat) (x : α)
    (h : i ≤ l.length) : listRemoveAt (listInsertAt l i [x]) i 1 = l := by
  induction l generalizing i with
  | nil =>
    have : i = 0 := by simpa using h
    subst this
    rfl
  | cons a l ih =>
    cases i with
    | zero => rfl
    | succ i =>
      rw [listInsertAt_cons_succ, listRemoveAt_cons_succ,
        ih i (by simpa using h)]

theorem length_listInsertAt (l : List α) (i : Nat) (xs : List α)
    (h : i ≤ l.length) : (listInsertAt l i xs).length = l.length + xs.length := by
  simp [listInsertAt]
  omega

theorem get?_listInsertAt_self (l : List α) (i : Nat) (x : α)
    (h : i ≤ l.length) : (listInsertAt l i [x]).get? i = some x := by
  induction l generalizing i with
  | nil =>
    have : i = 0 := by simpa using h
    subst this
    rfl
  | cons a l ih =>
    cases i with
    | zero => rfl
    | succ i =>
      rw [listInsertAt_cons_succ]
      simpa using ih i (by simpa using h)

theorem jsFindIndex_listInsertAt_fresh (l : List Item) (i : Nat) (x : Item)
    (h : ∀ it ∈ l, (it.id == x.id) = false) (hi : i ≤ l.length) :
    jsFindIndex (fun it => it.id == x.id) (listInsertAt l i [x]) = some i := by
  induction l generalizing i with
  | nil =>
    have : i = 0 := by simpa using hi
    subst this
    simp [listInsertAt, jsFindIndex]
  | cons a l ih =>
    cases i with
    | zero => simp [listInsertAt_zero, jsFindIndex]
    | succ i =>
      rw [listInsertAt_cons_succ]
      have ha : (a.id == x.id) = false := h a (by simp)
      simp only [jsFindIndex, ha, if_false, Bool.false_eq_true]
      rw [ih i (fun it hit => h it (List.mem_cons_of_mem a hit))
        (by simpa using hi)]
      rfl

theorem capPush_of_lt (l : List Snapshot) (d : Snapshot)
    (h : l.length < MAX_HISTORY_SIZE) : capPush l d = l ++ [d] := by
  unfold capPush
  rw [if_neg]
  simp
  omega

/-! #### Field-preservation lemmas for the selection helpers -/

theorem selectItemOp_fields (s : AppState) (i : Int) :
    (selectItemOp s i).items = s.items ∧
      (selectItemOp s i).archivedItems = s.archivedItems ∧
      (selectItemOp s i).history = s.history ∧
      (selectItemOp s i).future = s.future ∧
      (selectItemOp s i).editingId = s.editingId ∧
      (selectItemOp s i).isNewItem = s.isNewItem ∧
      (selectItemOp s i).nextId = s.nextId := by
  unfold selectItemOp smClear smSetSingle
  split <;> simp

theorem resetSelectionAfterDelete_fields (s : AppState) (r : Int)
    (t : List DType) :
    (resetSelectionAfterDelete s r t).items = s.items ∧
      (resetSelectionAfterDelete s r t).archivedItems = s.archivedItems ∧
      (resetSelectionAfterDelete s r t).history = s.history ∧
      (resetSelectionAfterDelete s r t).future = s.future ∧
      (resetSelectionAfterDelete s r t).editingId = s.editingId ∧
      (resetSelectionAfterDelete s r t).isNewItem = s.isNewItem ∧
      (resetSelectionAfterDelete s r t).nextId = s.nextId := by
  unfold resetSelectionAfterDelete
  dsimp only
  split <;> simp

/-- `deleteSingle` at a valid index: removes exactly that element and
touches nothing besides items and selection. -/
theorem deleteSingle_spec (s : AppState) (i : Nat) (x : Item)
    (hx : s.items.get? i = some x) :
    (deleteSingle s i).items = listRemoveAt s.items i 1 ∧
      (deleteSingle s i).archivedItems = s.archivedItems ∧
      (deleteSingle s i).history = s.history ∧
      (deleteSingle s i).future = s.future ∧
      (deleteSingle s i).editingId = s.editingId ∧
      (deleteSingle s i).isNewItem = s.isNewItem ∧
      (deleteSingle s i).nextId = s.nextId := by
  have hlen : i < s.items.length := List.get?_eq_some.mp hx |>.1.trans_eq rfl
  unfold deleteSingle
  rw [if_neg (by omega), hx]
  set s1 : AppState := { s with items := listRemoveAt s.items i 1 } with hs1
  have h2 := resetSelectionAfterDelete_fields s1 (i : Int) [dtypeOf x]
  have h3 := selectItemOp_fields (resetSelectionAfterDelete s1 (i : Int) [dtypeOf x])
    (resetSelectionAfterDelete s1 (i : Int) [dtypeOf x]).activeIndex
  simp only [hs1] at h2
  exact ⟨by rw [h3.1, h2.1], by rw [h3.2.1, h2.2.1],
    by rw [h3.2.2.1, h2.2.2.1], by rw [h3.2.2.2.1, h2.2.2.2.1],
    by rw [h3.2.2.2.2.1, h2.2.2.2.2.1],
    by rw [h3.2.2.2.2.2.1, h2.2.2.2.2.2.1],
    by rw [h3.2.2.2.2.2.2, h2.2.2.2.2.2.2]⟩

theorem emResetEditingState_fields (x : AppState) :
    (emResetEditingState x).items = x.items ∧
      (emResetEditingState x).history = x.history ∧
      (emResetEditingState x).editingId = none ∧
      (emResetEditingState x).isNewItem = false :=
  ⟨rfl, rfl, rfl, rfl⟩

theorem hmPopLast_fields (x : AppState) :
    (hmPopLast x).items = x.items ∧
      (hmPopLast x).history = x.history.dropLast :=
  ⟨rfl, rfl⟩

/-- Committing an empty title on a new item dispatches to
`_cancelNewItem`. -/
theorem emSaveEdit_empty_new (s : AppState) (i : Nat)
    (h : s.isNewItem = true) : emSaveEdit s i "" = emCancelNewItem s i := by
  unfold emSaveEdit
  rw [if_pos ⟨rfl, h⟩]

/-- Normal form of `addItem .todo`: the snapshot, the insertion of the
blank todo at the computed position, the fresh id bump, selection, and the
new-item editing session (`blocked` is identically false for todos). -/
theorem addItem_todo_form (s : AppState) :
    addItem .todo s =
      startEditing
        (selectItemOp
          { hmSave s with
            items :=
              listInsertAt (hmSave s).items (addItemInsertIndex .todo (hmSave s))
                [{ id := (hmSave s).nextId, type := .todo, title := ""
                   indent := addItemIndent .todo (hmSave s), isChecked := false
                   note := "" }]
            nextId := (hmSave s).nextId + 1 }
          ((addItemInsertIndex .todo (hmSave s) : Nat) : Int))
        (hmSave s).nextId true := rfl

/-- C9 (amended).  Creating a todo and committing it with an empty title
always restores the items list and returns the edit session to idle;
the history stack is restored provided it held fewer than its cap of 50
entries before the creation.  `hfresh` states id-freshness of the id
counter, `hact` that the active index is in range (both invariants of real
states). -/
theorem c9_abandoned_new_item (s : AppState)
    (hfresh : ∀ it ∈ s.items, it.id < s.nextId)
    (hact : s.activeIndex < (s.items.length : Int)) :
    (stopEditing (addItem .todo s) true "").items = s.items ∧
      (s.history.length < MAX_HISTORY_SIZE →
        (stopEditing (addItem .todo s) true "").history = s.history) ∧
      (stopEditing (addItem .todo s) true "").editingId = none ∧
      (stopEditing (addItem .todo s) true "").isNewItem = false := by
  have hs1items : (hmSave s).items = s.items := rfl
  have hs1act : (hmSave s).activeIndex = s.activeIndex := rfl
  have hs1nid : (hmSave s).nextId = s.nextId := rfl
  set k := addItemInsertIndex .todo (hmSave s) with hkd
  have hk : k ≤ s.items.length := by
    rw [hkd]
    unfold addItemInsertIndex
    rw [hs1act, hs1items]
    split
    · rw [if_neg (by simp : ¬(ItemType.todo = ItemType.heading))]
      omega
    · exact le_rfl
  set newItm : Item :=
    { id := (hmSave s).nextId, type := .todo, title := ""
      indent := addItemIndent .todo (hmSave s), isChecked := false
      note := "" } with hnid
  set s2 : AppState :=
    { hmSave s with items := listInsertAt (hmSave s).items k [newItm]
                    nextId := (hmSave s).nextId + 1 } with hs2d
  have hr : addItem .todo s =
      startEditing (selectItemOp s2 (k : Int)) (hmSave s).nextId true :=
    addItem_todo_form s
  obtain ⟨hsel1, hsel2, hsel3, hsel4, hsel5, hsel6, hsel7⟩ :=
    selectItemOp_fields s2 (k : Int)
  have hr1items : (addItem .todo s).items = listInsertAt s.items k [newItm] := by
    rw [hr]
    show (selectItemOp s2 (k : Int)).items = _
    rw [hsel1]
    show listInsertAt (hmSave s).items k [newItm] = _
    rw [hs1items]
  have hr1hist : s.history.length < MAX_HISTORY_SIZE →
      (addItem .todo s).history = s.history ++ [docOf s] := by
    intro hhist
    have hs1hist : (hmSave s).history = s.history ++ [docOf s] := by
      unfold hmSave
      rw [capPush_of_lt _ _ hhist]
    rw [hr]
    show (selectItemOp s2 (k : Int)).history = _
    rw [hsel3]
    show (hmSave s).history = _
    exact hs1hist
  have hr1edit : (addItem .todo s).editingId = some s.nextId := by
    rw [hr]
    show some (hmSave s).nextId = _
    rw [hs1nid]
  have hr1new : (addItem .todo s).isNewItem = true := by
    rw [hr]
    rfl
  have hfind : jsFindIndex (fun i => i.id == s.nextId)
      (addItem .todo s).items = some k := by
    rw [hr1items]
    have hfresh2 : ∀ it ∈ s.items, (it.id == newItm.id) = false := by
      intro it hit
      have := hfresh it hit
      simp only [hnid, hs1nid, beq_eq_false_iff_ne, ne_eq]
      omega
    have := jsFindIndex_listInsertAt_fresh s.items k newItm hfresh2 hk
    simpa [hnid, hs1nid] using this
  have htrim : jsStrTrim "" = "" := rfl
  have hget : (addItem .todo s).items.get? k = some newItm := by
    rw [hr1items]
    exact get?_listInsertAt_self s.items k newItm hk
  obtain ⟨hd1, hd2, hd3, hd4, hd5, hd6, hd7⟩ :=
    deleteSingle_spec (addItem .todo s) k newItm hget
  have hdelitems : (deleteSingle (addItem .todo s) k).items = s.items := by
    rw [hd1, hr1items, listRemoveAt_listInsertAt_one s.items k newItm hk]
  have goal : stopEditing (addItem .todo s) true "" =
      emResetEditingState (hmPopLast (deleteSingle (addItem .todo s) k)) := by
    unfold stopEditing
    simp only [hr1edit]
    simp only [hfind]
    simp only [htrim]
    rw [emSaveEdit_empty_new _ _ hr1new]
    unfold emCancelNewItem
    rfl
  refine ⟨?_, ?_, ?_, ?_⟩
  · rw [goal, (emResetEditingState_fields _).1, (hmPopLast_fields _).1,
      hdelitems]
  · intro hhist
    rw [goal, (emResetEditingState_fields _).2.1, (hmPopLast_fields _).2,
      hd3, hr1hist hhist, List.dropLast_concat]
  · rw [goal, (emResetEditingState_fields _).2.2.1]
  · rw [goal, (emResetEditingState_fields _).2.2.2]

/-- Concrete state for the C9 witness: one todo, one history entry, id
counter ahead of all ids. -/
def c9WitnessState : AppState :=
  { AppState.empty with
    items := [exTodoA]
    history := [([], [])]
    activeIndex := 0
    anchorIndex := 0
    selectedIndices := [0]
    nextId := 2 }

/-- Closed instance discharging the hypotheses of the abandoned-new-item
theorem on a concrete state. -/
theorem c9_abandoned_new_item_witness :
    (∀ it ∈ c9WitnessState.items, it.id < c9WitnessState.nextId) ∧
      c9WitnessState.activeIndex < (c9WitnessState.items.length : Int) ∧
      c9WitnessState.history.length < MAX_HISTORY_SIZE ∧
      (stopEditing (addItem .todo c9WitnessState) true "").items =
        c9WitnessState.items ∧
      (stopEditing (addItem .todo c9WitnessState) true "").history =
        c9WitnessState.history :=
  ⟨by decide, by decide, by decide,
    (c9_abandoned_new_item c9WitnessState (by decide) (by decide)).1,
    (c9_abandoned_new_item c9WitnessState (by decide)
      (by decide)).2.1 (by decide)⟩

/-- C9 counterexample at the history cap: with exactly 50 history entries
before the creation, the items list is still restored, but the eviction
performed by `save` followed by `popLast` nets the loss of the oldest
entry — the history stack is NOT restored to its pre-creation value. -/
theorem c9_cap_counterexample :
    (stopEditing
        (addItem .todo
          { AppState.empty with
            items := [exTodoA]
            history := List.replicate 50 ([], [])
            activeIndex := 0
            anchorIndex := 0
            selectedIndices := [0]
            nextId := 2 })
        true "").items = [exTodoA] ∧
      (stopEditing
        (addItem .todo
          { AppState.empty with
            items := [exTodoA]
            history := List.replicate 50 ([], [])
            activeIndex := 0
            anchorIndex := 0
            selectedIndices := [0]
            nextId := 2 })
        true "").history ≠ List.replicate 50 ([], []) := by
  constructor
  · decide
  · decide

/-! #### listModify lemmas and the indent round trip (C8) -/

theorem listModify_listModify (f g : α → α) (i : Nat) (l : List α) :
    listModify f i (listModify g i l) = listModify (fun x => f (g x)) i l := by
  induction l generalizing i with
  | nil => cases i <;> rfl
  | cons a l ih =>
    cases i with
    | zero => rfl
    | succ i => simp [listModify, ih i]

theorem get?_listModify (f : α → α) (i : Nat) (l : List α) :
    (listModify f i l).get? i = (l.get? i).map f := by
  induction l generalizing i with
  | nil => cases i <;> rfl
  | cons a l ih =>
    cases i with
    | zero => rfl
    | succ i => simpa [listModify] using ih i

theorem listModify_eq_self (f : α → α) (i : Nat) (l : List α)
    (h : ∀ x, l.get? i = some x → f x = x) : listModify f i l = l := by
  induction l generalizing i with
  | nil => cases i <;> rfl
  | cons a l ih =>
    cases i with
    | zero => simp [listModify, h a rfl]
    | succ i => simp [listModify, ih i (fun x hx => h x hx)]

/-- Inversion of a successful indent-increase check: the item is a
non-heading with indent 0. -/
theorem canChangeIndent_inv (l : List Item) (it : Item) (i : Nat)
    (h : canChangeIndent l it i 1 ((it.indent : Int) + 1) = true) :
    (it.type == ItemType.heading) = false ∧ it.indent = 0 := by
  unfold canChangeIndent at h
  split at h
  · exact absurd h (by simp)
  · split at h
    · exact absurd h (by simp)
    · next hty hbound =>
      refine ⟨by simpa using hty, ?_⟩
      rw [not_or] at hbound
      omega

/-- C8.  For a single selected in-range item, `Indent(+1)` followed by
`Indent(-1)` restores the items list exactly, provided the increase
passed `canChangeIndent` (item not a heading, result indent within
bounds, not at index 0 or just after a heading). -/
theorem c8_indent_roundtrip (s : AppState) (i : Nat) (it : Item)
    (hsel : s.selectedIndices = [i])
    (hget : s.items.get? i = some it)
    (hcan : canChangeIndent s.items it i 1 ((it.indent : Int) + 1) = true) :
    (changeIndent (-1) (changeIndent 1 s)).items = s.items := by
  obtain ⟨hty, hind⟩ := canChangeIndent_inv s.items it i hcan
  have hsort : sortAsc [i] = [i] := rfl
  have step1 : changeIndent 1 s =
      { s with
        items := listModify (fun x => { x with indent := 1 }) i s.items } := by
    unfold changeIndent
    rw [hsel, hsort]
    simp only [List.foldl_cons, List.foldl_nil, hget]
    rw [if_pos hcan]
    have : ((it.indent : Int) + 1).toNat = 1 := by omega
    rw [this]
  set it1 : Item := { it with indent := 1 } with hit1
  have hget1 : (listModify (fun x => { x with indent := 1 }) i s.items).get? i
      = some it1 := by
    rw [get?_listModify, hget]
    rfl
  have hcan2 : canChangeIndent
      (listModify (fun x => { x with indent := 1 }) i s.items) it1 i (-1)
      ((it1.indent : Int) + (-1)) = true := by
    unfold canChangeIndent
    rw [if_neg (by simpa [hit1] using hty)]
    rw [if_neg (by simp [hit1])]
    rw [if_neg (by decide)]
  have step2 : changeIndent (-1) (changeIndent 1 s) =
      { s with
        items := listModify (fun x => { x with indent := 0 }) i
          (listModify (fun x => { x with indent := 1 }) i s.items) } := by
    rw [step1]
    unfold changeIndent
    simp only [hsel, hsort, List.foldl_cons, List.foldl_nil, hget1]
    rw [if_pos hcan2]
    have : ((it1.indent : Int) + (-1)).toNat = 0 := by
      simp [hit1]
    rw [this]
  rw [step2]
  show listModify (fun x => { x with indent := 0 }) i
      (listModify (fun x => { x with indent := 1 }) i s.items) = s.items
  rw [listModify_listModify]
  exact listModify_eq_self _ i s.items
    (fun x hx => by
      rw [hget] at hx
      cases hx
      cases it
      simp_all)

/-- Closed instance of the indent round trip on a concrete two-todo
list. -/
theorem c8_indent_roundtrip_witness :
    (c9WitnessState.items.get? 0 = some exTodoA → True) ∧
      (changeIndent (-1)
          (changeIndent 1
            { AppState.empty with
              items := [exTodoA, { exTodoA with id := 2 }]
              activeIndex := 1
              anchorIndex := 1
              selectedIndices := [1] })).items =
        [exTodoA, { exTodoA with id := 2 }] :=
  ⟨fun _ => trivial,
    c8_indent_roundtrip
      { AppState.empty with
        items := [exTodoA, { exTodoA with id := 2 }]
        activeIndex := 1
        anchorIndex := 1
        selectedIndices := [1] }
      1 { exTodoA with id := 2 } rfl (by decide) (by decide)⟩

/-! #### History behaviour of Move (C10) -/

theorem selectItemOp_history (s : AppState) (i : Int) :
    (selectItemOp s i).history = s.history :=
  (selectItemOp_fields s i).2.2.1

theorem selectItemOp_future (s : AppState) (i : Int) :
    (selectItemOp s i).future = s.future :=
  (selectItemOp_fields s i).2.2.2.1

theorem moveMultipleUp_hist (s : AppState) (start count : Nat)
    (mi : List Item) (ids : List Nat) :
    (moveMultipleUp s start count mi ids).history = s.history ∧
      (moveMultipleUp s start count mi ids).future = s.future := by
  unfold moveMultipleUp MoveUtils.updateSelectionByIds
  dsimp only
  repeat' split
  all_goals exact ⟨rfl, rfl⟩

theorem moveMultipleDown_hist (s : AppState) (start count : Nat)
    (mi : List Item) (ids : List Nat) :
    (moveMultipleDown s start count mi ids).history = s.history ∧
      (moveMultipleDown s start count mi ids).future = s.future := by
  unfold moveMultipleDown MoveUtils.updateSelectionByIds selectArchiveHeading
  dsimp only
  repeat' split
  all_goals exact ⟨rfl, rfl⟩

theorem moveMultipleItems_hist (d : Direction) (s : AppState) :
    (moveMultipleItems d s).history = s.history ∧
      (moveMultipleItems d s).future = s.future := by
  unfold moveMultipleItems
  dsimp only
  repeat' split
  all_goals
    first
      | exact ⟨rfl, rfl⟩
      | exact moveMultipleUp_hist _ _ _ _ _
      | exact moveMultipleDown_hist _ _ _ _ _

theorem moveSingleUp_hist (s : AppState) (it : Item) (oi cnt : Nat)
    (mi : List Item) :
    (moveSingleUp s it oi cnt mi).history = s.history ∧
      (moveSingleUp s it oi cnt mi).future = s.future := by
  unfold moveSingleUp
  dsimp only
  repeat' split
  all_goals
    first
      | exact ⟨rfl, rfl⟩
      | exact ⟨selectItemOp_history _ _, selectItemOp_future _ _⟩

theorem moveSingleDown_hist (s : AppState) (it : Item) (oi cnt : Nat)
    (mi : List Item) :
    (moveSingleDown s it oi cnt mi).history = s.history ∧
      (moveSingleDown s it oi cnt mi).future = s.future := by
  unfold moveSingleDown selectArchiveHeading
  dsimp only
  repeat' split
  all_goals
    first
      | exact ⟨rfl, rfl⟩
      | exact ⟨selectItemOp_history _ _, selectItemOp_future _ _⟩

theorem moveSingleItem_hist (d : Direction) (s : AppState) :
    (moveSingleItem d s).history = s.history ∧
      (moveSingleItem d s).future = s.future := by
  unfold moveSingleItem
  dsimp only
  repeat' split
  all_goals
    first
      | exact ⟨rfl, rfl⟩
      | exact moveSingleUp_hist _ _ _ _ _
      | exact moveSingleDown_hist _ _ _ _ _

/-- Rejected-move scenario (i): non-contiguous expanded multi-selection
over three sibling parents. -/
def c10NonContig : AppState :=
  { AppState.empty with
    items := [exTodoA, { exTodoA with id := 2 }, { exTodoA with id := 3 }]
    activeIndex := 0
    anchorIndex := 0
    selectedIndices := [0, 2]
    future := [([exTodoA], [])] }

/-- Rejected-move scenario (ii): parent with child selected together,
already at the top (the spec §8 scenario). -/
def c10TopBoundary : AppState :=
  { AppState.empty with
    items := [exTodoA, { exTodoA with id := 2, indent := 1 }]
    activeIndex := 0
    anchorIndex := 0
    selectedIndices := [0, 1]
    future := [([exTodoA], [])] }

/-- Rejected-move scenario (iii): the topmost expanded item is a child
while another selected item is a parent (ambiguous ownership). -/
def c10Ownership : AppState :=
  { AppState.empty with
    items := [exTodoA, { exTodoA with id := 2, indent := 1 },
      { exTodoA with id := 3 }]
    activeIndex := 1
    anchorIndex := 1
    selectedIndices := [1, 2]
    future := [([exTodoA], [])] }

/-- C10.  `moveItem` snapshots before its rejection checks: whenever its
two entry guards pass, the history gains exactly the pre-move snapshot and
the redo stack is cleared — even when the move is then rejected as a no-op
on the items, as in the three concrete rejected scenarios (non-contiguous
multi-selection, block at the top boundary, child/parent ownership
conflict), each of which leaves items untouched, a new undo entry behind,
and redo unavailable. -/
theorem c10_move_always_snapshots :
    (∀ (s : AppState) (d : Direction), ¬s.activeIndex < 0 →
      ItemUtils.isArchiveHeadingO (s.items.get? s.activeIndex.toNat) = false →
      (moveItem d s).history = capPush s.history (docOf s) ∧
        (moveItem d s).future = []) ∧
      ((moveItem .up c10NonContig).items = c10NonContig.items ∧
        (moveItem .up c10NonContig).history =
          c10NonContig.history ++ [docOf c10NonContig] ∧
        (moveItem .up c10NonContig).future = []) ∧
      ((moveItem .up c10TopBoundary).items = c10TopBoundary.items ∧
        (moveItem .up c10TopBoundary).history =
          c10TopBoundary.history ++ [docOf c10TopBoundary] ∧
        (moveItem .up c10TopBoundary).future = []) ∧
      ((moveItem .down c10Ownership).items = c10Ownership.items ∧
        (moveItem .down c10Ownership).history =
          c10Ownership.history ++ [docOf c10Ownership] ∧
        (moveItem .down c10Ownership).future = []) := by
  refine ⟨?_, ⟨by decide, by decide, by decide⟩, ⟨by decide, by decide, by decide⟩,
    ⟨by decide, by decide, by decide⟩⟩
  intro s d h1 h2
  unfold moveItem
  rw [if_neg h1, if_neg (by simp only [h2]; simp)]
  have hh : (hmSave s).history = capPush s.history (docOf s) := rfl
  have hf : (hmSave s).future = [] := rfl
  dsimp only
  constructor
  · split
    · exact (moveMultipleItems_hist d (hmSave s)).1.trans hh
    · exact (moveSingleItem_hist d (hmSave s)).1.trans hh
  · split
    · exact (moveMultipleItems_hist d (hmSave s)).2.trans hf
    · exact (moveSingleItem_hist d (hmSave s)).2.trans hf

/-- Closed instance of the universal part of the Move-snapshot theorem at
a concrete state whose move is rejected. -/
theorem c10_move_always_snapshots_witness :
    ¬(c10NonContig.activeIndex < 0) ∧
      ItemUtils.isArchiveHeadingO
        (c10NonContig.items.get? c10NonContig.activeIndex.toNat) = false ∧
      (moveItem .up c10NonContig).future = [] :=
  ⟨by decide, by decide,
    (c10_move_always_snapshots.1 c10NonContig .up (by decide) (by decide)).2⟩

/-! #### The history law (C2)

An operation that "pushes exactly one history snapshot" is, as in every
mutating operation of the source, a `HistoryManager.save()` followed by
some replacement of the `(items, archivedItems)` document; `snapOp`
captures exactly that shape for an arbitrary document transformation. -/

/-- One snapshotting operation: `save()` then mutate the document. -/
def snapOp (f : Snapshot → Snapshot) (s : AppState) : AppState :=
  let s1 := hmSave s
  { s1 with items := (f (docOf s)).1, archivedItems := (f (docOf s)).2 }

/-- Run a sequence of snapshotting operations. -/
def runOps (fs : List (Snapshot → Snapshot)) (s : AppState) : AppState :=
  fs.foldl (fun s f => snapOp f s) s

/-- Iterated `undo()`. -/
def undoN : Nat → AppState → AppState
  | 0, s => s
  | n + 1, s => undoN n (hmUndo s)

/-- The documents in effect before each operation of the run — exactly the
snapshots the run pushes. -/
def docsAlong : List (Snapshot → Snapshot) → AppState → List Snapshot
  | [], _ => []
  | f :: fs, s => docOf s :: docsAlong fs (snapOp f s)

theorem undoN_succ_out (n : Nat) (s : AppState) :
    undoN (n + 1) s = hmUndo (undoN n s) := by
  induction n generalizing s with
  | zero => rfl
  | succ n ih =>
    show undoN (n + 1) (hmUndo s) = _
    rw [ih (hmUndo s)]
    rfl

theorem hmValidateSelection_fields (s : AppState) :
    (hmValidateSelection s).items = s.items ∧
      (hmValidateSelection s).archivedItems = s.archivedItems ∧
      (hmValidateSelection s).history = s.history ∧
      (hmValidateSelection s).future = s.future := by
  unfold hmValidateSelection
  dsimp only
  exact ⟨rfl, rfl, rfl, rfl⟩

theorem hmUndo_spec (s : AppState) (h : s.history ≠ []) :
    docOf (hmUndo s) = s.history.getLastD ([], []) ∧
      (hmUndo s).history = s.history.dropLast := by
  unfold hmUndo
  rw [if_neg h]
  obtain ⟨f1, f2, f3, f4⟩ := hmValidateSelection_fields
    { s with
      items := (s.history.getLastD ([], [])).1
      archivedItems := (s.history.getLastD ([], [])).2
      history := s.history.dropLast
      future := s.future ++ [docOf s] }
  exact ⟨by rw [docOf, f1, f2], f3⟩

theorem capPush_length_le (l : List Snapshot) (d : Snapshot)
    (h : l.length ≤ MAX_HISTORY_SIZE) :
    (capPush l d).length ≤ MAX_HISTORY_SIZE := by
  have hM : MAX_HISTORY_SIZE = 50 := rfl
  rw [hM] at h ⊢
  unfold capPush
  rw [hM]
  dsimp only
  split
  · simp
    omega
  · next hh =>
    simp at hh ⊢
    omega

theorem snapOp_history (f : Snapshot → Snapshot) (s : AppState) :
    (snapOp f s).history = capPush s.history (docOf s) := rfl

theorem getLastD_concat (l : List Snapshot) (d z : Snapshot) :
    (l ++ [d]).getLastD z = d := by
  induction l generalizing z with
  | nil => rfl
  | cons a t ih =>
    rw [List.cons_append, List.getLastD_cons]
    exact ih a

/-- Core induction for the undo law: after `n ≤ 50` snapshotting
operations, `n` undos restore the document, and the surviving history is
the original minus whatever the cap evicted. -/
theorem undo_runOps (fs : List (Snapshot → Snapshot)) (s : AppState)
    (hlen : s.history.length ≤ MAX_HISTORY_SIZE)
    (hN : fs.length ≤ MAX_HISTORY_SIZE) :
    docOf (undoN fs.length (runOps fs s)) = docOf s ∧
      (undoN fs.length (runOps fs s)).history =
        s.history.drop (s.history.length + fs.length - MAX_HISTORY_SIZE) := by
  have hM : MAX_HISTORY_SIZE = 50 := rfl
  rw [hM] at hlen hN ⊢
  induction fs generalizing s with
  | nil =>
    refine ⟨rfl, ?_⟩
    show s.history = s.history.drop (s.history.length + [].length - 50)
    rw [show s.history.length + [].length - 50 = 0 from by simp; omega]
    rfl
  | cons f fs ih =>
    have hlen1 : (snapOp f s).history.length ≤ 50 := by
      rw [snapOp_history]
      have := capPush_length_le s.history (docOf s) (by rw [hM]; exact hlen)
      rw [hM] at this
      exact this
    have hN1 : fs.length ≤ 50 := by
      simp at hN
      omega
    obtain ⟨ihdoc, ihhist⟩ := ih (snapOp f s) hlen1 hN1
    have hstep : runOps (f :: fs) s = runOps fs (snapOp f s) := rfl
    have hcount : (f :: fs).length = fs.length + 1 := rfl
    rw [hstep, hcount, undoN_succ_out]
    set Y := undoN fs.length (runOps fs (snapOp f s)) with hY
    by_cases hcase : s.history.length < 50
    · have hcap : (snapOp f s).history = s.history ++ [docOf s] := by
        rw [snapOp_history]
        exact capPush_of_lt _ _ (by rw [hM]; exact hcase)
      have hk : (snapOp f s).history.length + fs.length - 50 ≤
          s.history.length := by
        rw [hcap]
        simp
        omega
      have hYhist : Y.history =
          s.history.drop ((snapOp f s).history.length + fs.length - 50) ++
            [docOf s] := by
        rw [ihhist, hcap]
        rw [List.drop_append_of_le_length (by rw [← hcap]; exact hk)]
      have hYne : Y.history ≠ [] := by
        rw [hYhist]
        simp
      obtain ⟨hu1, hu2⟩ := hmUndo_spec Y hYne
      constructor
      · rw [hu1, hYhist, getLastD_concat]
      · rw [hu2, hYhist, List.dropLast_concat, hcap]
        congr 1
        simp
        omega
    · have hlen50 : s.history.length = 50 := by omega
      have hne : ∃ x rest, s.history = x :: rest := by
        cases hh : s.history with
        | nil => rw [hh] at hlen50; simp at hlen50
        | cons x rest => exact ⟨x, rest, rfl⟩
      obtain ⟨x, rest, hx⟩ := hne
      have hcap : (snapOp f s).history =
          s.history.drop 1 ++ [docOf s] := by
        rw [snapOp_history]
        unfold capPush
        rw [if_pos (by simp [hM]; omega)]
        rw [List.drop_append_of_le_length (by omega)]
      have hfsle : fs.length ≤ (s.history.drop 1).length := by
        simp
        omega
      have hYhist : Y.history =
          (s.history.drop 1).drop fs.length ++ [docOf s] := by
        rw [ihhist, hcap]
        rw [show (s.history.drop 1 ++ [docOf s]).length + fs.length - 50 =
          fs.length from by simp; omega]
        rw [List.drop_append_of_le_length hfsle]
      have hYne : Y.history ≠ [] := by
        rw [hYhist]
        simp
      obtain ⟨hu1, hu2⟩ := hmUndo_spec Y hYne
      constructor
      · rw [hu1, hYhist, getLastD_concat]
      · rw [hu2, hYhist, List.dropLast_concat, List.drop_drop]
        congr 1
        omega

/-- History contents after a run: the original history extended by the
pushed snapshots, with the overflow beyond 50 evicted from the front. -/
theorem runOps_history (fs : List (Snapshot → Snapshot)) (s : AppState)
    (hlen : s.history.length ≤ MAX_HISTORY_SIZE) :
    (runOps fs s).history =
      (s.history ++ docsAlong fs s).drop
        (s.history.length + fs.length - MAX_HISTORY_SIZE) := by
  have hM : MAX_HISTORY_SIZE = 50 := rfl
  rw [hM] at hlen ⊢
  induction fs generalizing s with
  | nil =>
    show s.history = _
    rw [show s.history.length + [].length - 50 = 0 from by simp; omega]
    simp [docsAlong]
  | cons f fs ih =>
    have hlen1 : (snapOp f s).history.length ≤ 50 := by
      rw [snapOp_history]
      have := capPush_length_le s.history (docOf s) (by rw [hM]; exact hlen)
      rw [hM] at this
      exact this
    have hstep : runOps (f :: fs) s = runOps fs (snapOp f s) := rfl
    rw [hstep, ih (snapOp f s) hlen1]
    show _ = (s.history ++ docOf s :: docsAlong fs (snapOp f s)).drop _
    by_cases hcase : s.history.length < 50
    · have hcap : (snapOp f s).history = s.history ++ [docOf s] := by
        rw [snapOp_history]
        exact capPush_of_lt _ _ (by rw [hM]; exact hcase)
      rw [hcap, List.append_assoc, List.singleton_append]
      congr 1
      simp
      omega
    · have hlen50 : s.history.length = 50 := by omega
      obtain ⟨x, rest, hx⟩ : ∃ x rest, s.history = x :: rest := by
        cases hh : s.history with
        | nil => rw [hh] at hlen50; simp at hlen50
        | cons x rest => exact ⟨x, rest, rfl⟩
      have hcap : (snapOp f s).history =
          s.history.drop 1 ++ [docOf s] := by
        rw [snapOp_history]
        unfold capPush
        rw [if_pos (by simp [hM]; omega)]
        rw [List.drop_append_of_le_length (by omega)]
      rw [hcap]
      rw [show (s.history.drop 1 ++ [docOf s]).length + fs.length - 50 =
        fs.length from by simp; omega]
      rw [show s.history.length + (f :: fs).length - 50 = fs.length + 1
        from by simp; omega]
      rw [hx]
      simp only [List.drop_one, List.tail_cons, List.cons_append,
        List.drop_succ_cons]
      rw [List.append_assoc, List.singleton_append]
      simp

/-- C2.  The history law: a run of `N` snapshotting operations followed by
`N` undos restores the `(items, archivedItems)` document whenever
`N ≤ 50`; and starting from an empty history, the history after the run
holds exactly the pushed snapshots minus the first `N - 50` (so for
`N > 50` the oldest are evicted and only the most recent 50 remain
recoverable). -/
theorem c2_history_law (s : AppState) (fs : List (Snapshot → Snapshot))
    (hlen : s.history.length ≤ MAX_HISTORY_SIZE) :
    (fs.length ≤ MAX_HISTORY_SIZE →
      docOf (undoN fs.length (runOps fs s)) = docOf s) ∧
      (s.history = [] →
        (runOps fs s).history =
          (docsAlong fs s).drop (fs.length - MAX_HISTORY_SIZE)) := by
  constructor
  · intro hN
    exact (undo_runOps fs s hlen hN).1
  · intro hnil
    have := runOps_history fs s hlen
    rw [hnil] at this
    simpa using this

/-- Closed instance of the history law: one operation, one undo, on the
empty state. -/
theorem c2_history_law_witness :
    (AppState.empty.history.length ≤ MAX_HISTORY_SIZE) ∧
      docOf
        (undoN 1
          (runOps [fun _ => ([exTodoA], [])] AppState.empty)) =
        docOf AppState.empty :=
  ⟨by decide,
    (c2_history_law AppState.empty [fun _ => ([exTodoA], [])]
      (by decide)).1 (by decide)⟩

/-! #### Paste position (C6) -/

/-- Zero child count at a heading. -/
theorem getChildCount_heading (l : List Item) (i : Nat) (it : Item)
    (hget : l.get? i = some it) (hty : it.type = ItemType.heading) :
    ItemUtils.getChildCount l i = 0 := by
  unfold ItemUtils.getChildCount
  simp only [hget]
  rw [if_pos (by simp [hty])]

/-- The paste position as the claim words it: the child-count-adjusted
position after the active item's block when the active item is an indent-0
parent (a non-heading todo of indent 0), immediately after the active item
otherwise, the list end when nothing is active; clamped back to the
Archive sentinel's position when it would land past it. -/
def claimPastePos (s : AppState) : Nat :=
  let raw :=
    if s.activeIndex < 0 then s.items.length
    else
      match s.items.get? s.activeIndex.toNat with
      | some it =>
        if it.type == .todo && it.indent == 0 then
          s.activeIndex.toNat + 1 +
            ItemUtils.getChildCount s.items s.activeIndex.toNat
        else s.activeIndex.toNat + 1
      | none => s.items.length
  match ItemUtils.findArchiveIndex s.items with
  | some archiveIndex => min raw archiveIndex
  | none => raw

/-- The sentinel clamp, stated over an optional sentinel position: the
source's conditional reassignment equals a `min`. -/
theorem clampMatch_eq (o : Option Nat) (r : Nat) :
    (match o with
     | some ai => if ai < r then ai else r
     | none => r) =
    (match o with
     | some ai => min r ai
     | none => r) := by
  cases o with
  | none => rfl
  | some ai =>
    dsimp only
    rw [Nat.min_def]
    by_cases hc : ai < r
    · rw [if_pos hc, if_neg (by omega)]
    · rw [if_neg hc, if_pos (by omega)]

/-- The position the code computes coincides with the claim's description
on every state with an in-range (or inactive) active index. -/
theorem pasteInsertIndex_eq_claim (s : AppState)
    (h2 : s.activeIndex < (s.items.length : Int)) :
    pasteInsertIndex s = claimPastePos s := by
  unfold pasteInsertIndex claimPastePos
  dsimp only
  have hraw :
      (if 0 ≤ s.activeIndex then
        match s.items.get? s.activeIndex.toNat with
        | none => s.activeIndex.toNat + 1
        | some activeItem =>
          if activeItem.indent = 0 then
            s.activeIndex.toNat + 1 +
              ItemUtils.getChildCount s.items s.activeIndex.toNat
          else s.activeIndex.toNat + 1
       else s.items.length) =
      (if s.activeIndex < 0 then s.items.length
       else
        match s.items.get? s.activeIndex.toNat with
        | some it =>
          if it.type == ItemType.todo && it.indent == 0 then
            s.activeIndex.toNat + 1 +
              ItemUtils.getChildCount s.items s.activeIndex.toNat
          else s.activeIndex.toNat + 1
        | none => s.items.length) := by
    by_cases h0 : 0 ≤ s.activeIndex
    · rw [if_pos h0, if_neg (by omega)]
      cases hg : s.items.get? s.activeIndex.toNat with
      | none =>
        rw [List.get?_eq_none] at hg
        omega
      | some it =>
        dsimp only
        cases hty : it.type with
        | todo =>
          by_cases hi : it.indent = 0
          · rw [if_pos hi, if_pos (by simp [hty, hi])]
          · rw [if_neg hi, if_neg (by simp [hty, hi])]
        | heading =>
          by_cases hi : it.indent = 0
          · rw [if_pos hi, if_neg (by simp [hty])]
            rw [getChildCount_heading s.items s.activeIndex.toNat it hg hty]
          · rw [if_neg hi, if_neg (by simp [hty])]
    · rw [if_neg h0, if_pos (by omega)]
  rw [hraw]
  exact clampMatch_eq _ _

/-- Heading titled H for the C6 scenario. -/
def exHeadH : Item :=
  { id := 1, type := .heading, title := "H", indent := 0, isChecked := false
    note := "" }

/-- Clipboard todo titled X for the C6 scenario. -/
def exTodoClipX : Item :=
  { id := 50, type := .todo, title := "X", indent := 0, isChecked := false
    note := "" }

/-- The C6 concrete scenario: items [heading H], clipboard [todo X],
nothing active. -/
def c6State : AppState :=
  { AppState.empty with
    items := [exHeadH]
    clipboard := [exTodoClipX]
    nextId := 100 }

/-- C6.  Paste inserts the clipboard clones (fresh ids, orphan-repaired)
exactly at the claim's position: after the active parent's block
(child-count adjusted), else right after the active item, else at the
list end, clamped to before the Archive sentinel; in particular pasting
[todo X] into [heading H] with nothing active appends the clone after the
heading. -/
theorem c6_paste_position (s : AppState) (h1 : ¬s.clipboard = [])
    (h2 : s.activeIndex < (s.items.length : Int)) :
    (pasteItems s).items =
      listInsertAt s.items (claimPastePos s)
        (ItemUtils.adjustOrphanedIndent
          (ItemUtils.deepCopyFresh s.clipboard s.nextId).1 s.items
          (claimPastePos s)) ∧
      (pasteItems c6State).items =
        [exHeadH, { exTodoClipX with id := 100 }] := by
  constructor
  · have hpos : pasteInsertIndex (hmSave s) = claimPastePos s :=
      pasteInsertIndex_eq_claim s h2
    unfold pasteItems
    rw [if_neg h1]
    dsimp only
    rw [(selectItemOp_fields _ _).1]
    show listInsertAt (hmSave s).items (pasteInsertIndex (hmSave s))
        (ItemUtils.adjustOrphanedIndent
          (ItemUtils.deepCopyFresh (hmSave s).clipboard (hmSave s).nextId).1
          (hmSave s).items (pasteInsertIndex (hmSave s))) = _
    rw [hpos]
    rfl
  · decide

/-- Closed instance of the paste-position theorem at the concrete C6
scenario state. -/
theorem c6_paste_position_witness :
    ¬c6State.clipboard = [] ∧
      c6State.activeIndex < (c6State.items.length : Int) ∧
      (pasteItems c6State).items =
        listInsertAt c6State.items (claimPastePos c6State)
          (ItemUtils.adjustOrphanedIndent
            (ItemUtils.deepCopyFresh c6State.clipboard c6State.nextId).1
            c6State.items (claimPastePos c6State)) :=
  ⟨by decide, by decide,
    (c6_paste_position c6State (by decide) (by decide)).1⟩

/-! #### Archive checked-state invariant (C7) -/

theorem listRemoveAt_subset (l : List α) (i c : Nat) :
    ∀ x ∈ listRemoveAt l i c, x ∈ l := by
  intro x hx
  unfold listRemoveAt at hx
  rcases List.mem_append.mp hx with h | h
  · exact List.take_subset _ _ h
  · exact List.drop_subset _ _ h

theorem moveToArchiveStep_fold_checked (toMove : List Item)
    (acc : List Item × List Item)
    (hacc : ∀ x ∈ acc.2, x.isChecked = true) :
    ∀ x ∈ (toMove.foldl moveToArchiveStep acc).2, x.isChecked = true := by
  induction toMove generalizing acc with
  | nil => exact hacc
  | cons item rest ih =>
    apply ih
    intro x hx
    unfold moveToArchiveStep at hx
    dsimp only at hx
    rcases hfi : jsFindIndex (fun i => i.id == item.id) acc.1 with _ | index
    all_goals rw [hfi] at hx
    · exact hacc x hx
    · dsimp only at hx
      rcases List.mem_append.mp hx with h | h
      · exact hacc x h
      · obtain ⟨y, _, rfl⟩ := List.mem_map.mp h
        rfl

theorem restoreRemoveStep_fold_unchecked (idxs : List Nat)
    (acc : List Item × List Item)
    (hacc : ∀ x ∈ acc.2, x.isChecked = false) :
    ∀ x ∈ (idxs.foldl restoreRemoveStep acc).2, x.isChecked = false := by
  induction idxs generalizing acc with
  | nil => exact hacc
  | cons i rest ih =>
    apply ih
    intro x hx
    unfold restoreRemoveStep at hx
    dsimp only at hx
    rcases hg : acc.1.get? i with _ | item
    all_goals rw [hg] at hx
    · exact hacc x hx
    · dsimp only at hx
      rcases List.mem_append.mp hx with h | h
      · exact hacc x h
      · rw [List.mem_singleton.mp h]


theorem restoreRemoveStep_fold_subset (idxs : List Nat)
    (acc : List Item × List Item) :
    ∀ x ∈ (idxs.foldl restoreRemoveStep acc).1, x ∈ acc.1 := by
  induction idxs generalizing acc with
  | nil => exact fun x hx => hx
  | cons i rest ih =>
    intro x hx
    have hsub := ih (restoreRemoveStep acc i) x hx
    unfold restoreRemoveStep at hsub
    dsimp only at hsub
    rcases hg : acc.1.get? i with _ | item
    all_goals rw [hg] at hsub
    · exact hsub
    · exact listRemoveAt_subset _ _ _ x hsub

theorem moveToArchive_all_checked (s : AppState)
    (hprior : ∀ x ∈ s.archivedItems, x.isChecked = true) :
    ∀ x ∈ (moveToArchive s).archivedItems, x.isChecked = true := by
  unfold moveToArchive
  dsimp only
  repeat' split
  all_goals intro x hx
  all_goals
    first
      | exact hprior x hx
      | (rcases List.mem_append.mp hx with h | h
         · exact moveToArchiveStep_fold_checked _ _ (by intro y hy; cases hy) x h
         · exact hprior x h)

theorem moveFromArchive_arch_checked (s : AppState)
    (hprior : ∀ x ∈ s.archivedItems, x.isChecked = true) :
    ∀ x ∈ (moveFromArchive s).archivedItems, x.isChecked = true := by
  unfold moveFromArchive
  dsimp only
  split
  · exact hprior
  · intro x hx
    exact hprior x (restoreRemoveStep_fold_subset _ _ x hx)

theorem moveFromArchive_restored_unchecked (s : AppState) :
    ∀ x ∈ (moveFromArchive s).items.drop s.items.length,
      x.isChecked = false := by
  unfold moveFromArchive
  dsimp only
  split
  · intro x hx
    rw [List.drop_length] at hx
    cases hx
  · intro x hx
    rw [show (hmSave s).items = s.items from rfl, List.drop_left] at hx
    exact restoreRemoveStep_fold_unchecked _ _ (by intro y hy; cases hy) x
      (List.mem_reverse.mp hx)

theorem modifyLast_note_checked (l : List MD.MDItem) (n : MD.Chars)
    (h : ∀ x ∈ l, x.isChecked = true) :
    ∀ x ∈ MD.modifyLast (fun it => { it with note := n }) l,
      x.isChecked = true := by
  induction l with
  | nil => intro x hx; cases hx
  | cons a t ih =>
    cases t with
    | nil =>
      intro x hx
      rw [show MD.modifyLast (fun it => { it with note := n }) [a] =
        [{ a with note := n }] from rfl] at hx
      rw [List.mem_singleton.mp hx]
      exact h a (by simp)
    | cons b t2 =>
      intro x hx
      rw [show MD.modifyLast (fun it => { it with note := n })
          (a :: b :: t2) =
          a :: MD.modifyLast (fun it => { it with note := n }) (b :: t2)
        from rfl] at hx
      rcases List.mem_cons.mp hx with rfl | hmem
      · exact h x (by simp)
      · exact ih (fun y hy => h y (by simp [hy])) x hmem

theorem processLine_arch_checked (st : MD.PState) (line : MD.Chars)
    (h : ∀ x ∈ st.archivedItems, x.isChecked = true) :
    ∀ x ∈ (MD.processLine st line).archivedItems, x.isChecked = true := by
  unfold MD.processLine
  dsimp only
  repeat' split
  all_goals intro x hx
  all_goals
    first
      | exact h x hx
      | exact modifyLast_note_checked _ _ h x hx
      | (rcases List.mem_append.mp hx with h2 | h2
         · exact h x h2
         · rw [List.mem_singleton.mp h2]
           rfl)

theorem parseLines_arch_checked (lines : List MD.Chars) (st : MD.PState)
    (h : ∀ x ∈ st.archivedItems, x.isChecked = true) :
    ∀ x ∈ (lines.foldl MD.processLine st).archivedItems,
      x.isChecked = true := by
  induction lines generalizing st with
  | nil => exact h
  | cons line rest ih =>
    exact ih (MD.processLine st line) (processLine_arch_checked st line h)

/-- C7.  Archive items are always checked: `moveToArchive` forces every
moved item checked and preserves the invariant; `parseMarkdown` produces
only checked archived items, for every input text; `moveFromArchive`
leaves only (still-checked) original members in the archive; and the items
it appends to the active list — everything past the old end of the list —
are all unchecked immediately after the restore. -/
theorem c7_archive_checked :
    (∀ s : AppState, (∀ x ∈ s.archivedItems, x.isChecked = true) →
      ∀ x ∈ (moveToArchive s).archivedItems, x.isChecked = true) ∧
      (∀ content : MD.Chars,
        ∀ x ∈ (MD.parseMarkdown content).archivedItems,
          x.isChecked = true) ∧
      (∀ s : AppState, (∀ x ∈ s.archivedItems, x.isChecked = true) →
        ∀ x ∈ (moveFromArchive s).archivedItems, x.isChecked = true) ∧
      (∀ s : AppState,
        ∀ x ∈ (moveFromArchive s).items.drop s.items.length,
          x.isChecked = false) := by
  refine ⟨moveToArchive_all_checked, ?_, moveFromArchive_arch_checked,
    moveFromArchive_restored_unchecked⟩
  intro content
  unfold MD.parseMarkdown MD.parseMarkdownLines
  dsimp only
  exact parseLines_arch_checked _ _ (by intro x hx; cases hx)

/-- Closed instance of the archive-checked invariant: archive the parent
of the C3 scenario over an initially checked archive, then parse a document
with an archive section. -/
theorem c7_archive_checked_witness :
    (∀ x ∈ (c3State [{ exTodoClipX with isChecked := true }]).archivedItems,
      x.isChecked = true) ∧
      (∀ x ∈ (moveToArchive
          (c3State [{ exTodoClipX with isChecked := true }])).archivedItems,
        x.isChecked = true) ∧
      (∀ x ∈ (MD.parseMarkdown
          ("## Archive\n- [ ] old\n".data)).archivedItems,
        x.isChecked = true) :=
  ⟨by decide,
    c7_archive_checked.1 (c3State [{ exTodoClipX with isChecked := true }])
      (by decide),
    c7_archive_checked.2.1 ("## Archive\n- [ ] old\n".data)⟩

/-! #### Round trip (C4), phase A: splitting and joining lines -/

namespace MD

theorem splitNl_ne_nil (cs : Chars) : splitNl cs ≠ [] := by
  cases cs with
  | nil => simp [splitNl]
  | cons c rest =>
    unfold splitNl
    cases splitNl rest with
    | nil => simp
    | cons l ls =>
      dsimp only
      split <;> simp

theorem splitNl_append_newline (l rest : Chars)
    (h : l.contains '\n' = false) :
    splitNl (l ++ '\n' :: rest) = l :: splitNl rest := by
  induction l with
  | nil =>
    show splitNl ('\n' :: rest) = [] :: splitNl rest
    cases hsp : splitNl rest with
    | nil => exact absurd hsp (splitNl_ne_nil rest)
    | cons a ls =>
      simp only [splitNl]
      rw [hsp]
      simp
  | cons c l ih =>
    have hcl : ¬ '\n' = c ∧ '\n' ∉ l := by simpa [List.contains_cons] using h
    have hc : ¬c = '\n' := fun hh => hcl.1 hh.symm
    have hl : l.contains '\n' = false := by simpa using hcl.2
    show splitNl (c :: (l ++ '\n' :: rest)) = (c :: l) :: splitNl rest
    simp only [splitNl]
    rw [ih hl]
    simp [hc]

theorem splitNl_no_newline (l : Chars) (h : l.contains '\n' = false) :
    splitNl l = [l] := by
  induction l with
  | nil => rfl
  | cons c l ih =>
    have hcl : ¬ '\n' = c ∧ '\n' ∉ l := by simpa [List.contains_cons] using h
    have hc : ¬c = '\n' := fun hh => hcl.1 hh.symm
    have hl : l.contains '\n' = false := by simpa using hcl.2
    show splitNl (c :: l) = [c :: l]
    simp only [splitNl]
    rw [ih hl]
    simp [hc]

theorem splitNl_joinNl (ls : List Chars)
    (h : ∀ l ∈ ls, l.contains '\n' = false) :
    splitNl (joinNl ls) = ls ++ [[]] := by
  induction ls with
  | nil => rfl
  | cons l ls ih =>
    have hjoin : joinNl (l :: ls) = l ++ '\n' :: joinNl ls := by
      unfold joinNl
      simp
    rw [hjoin, splitNl_append_newline l _ (h l (by simp)),
      ih (fun x hx => h x (by simp [hx]))]
    rfl

theorem splitNl_intercalNl (ls : List Chars) (hne : ls ≠ [])
    (h : ∀ l ∈ ls, l.contains '\n' = false) :
    splitNl (intercalNl ls) = ls := by
  induction ls with
  | nil => exact absurd rfl hne
  | cons l ls ih =>
    cases ls with
    | nil => exact splitNl_no_newline l (h l (by simp))
    | cons l2 ls2 =>
      show splitNl (l ++ '\n' :: intercalNl (l2 :: ls2)) = _
      rw [splitNl_append_newline l _ (h l (by simp)),
        ih (by simp) (fun x hx => h x (by simp [hx]))]

/-! Phase B: JS trim -/

theorem dropWhile_eq_self_of_length (p : Char → Bool) (l : Chars)
    (h : (l.dropWhile p).length = l.length) : l.dropWhile p = l := by
  cases l with
  | nil => rfl
  | cons c t =>
    by_cases hp : p c = true
    · rw [List.dropWhile_cons_of_pos hp] at h ⊢
      have hsuf : t.dropWhile p <:+ t := List.dropWhile_suffix p
      have hle := hsuf.length_le
      simp at h
      omega
    · rw [List.dropWhile_cons_of_neg (by simpa using hp)]

theorem jsTrim_parts (l : Chars) (h : jsTrim l = l) :
    l.dropWhile isJsWs = l ∧ l.reverse.dropWhile isJsWs = l.reverse := by
  have hsuf1 : (l.dropWhile isJsWs).reverse.dropWhile isJsWs <:+
      (l.dropWhile isJsWs).reverse := List.dropWhile_suffix isJsWs
  have hlen1 : ((l.dropWhile isJsWs).reverse.dropWhile isJsWs).length ≤
      (l.dropWhile isJsWs).length := by simpa using hsuf1.length_le
  have hsuf2 : l.dropWhile isJsWs <:+ l := List.dropWhile_suffix isJsWs
  have hlen2 : (l.dropWhile isJsWs).length ≤ l.length := hsuf2.length_le
  have hlen3 : (jsTrim l).length = l.length := by rw [h]
  have hlen4 : (jsTrim l).length =
      ((l.dropWhile isJsWs).reverse.dropWhile isJsWs).length := by
    unfold jsTrim
    simp
  have hfront : l.dropWhile isJsWs = l :=
    dropWhile_eq_self_of_length _ _ (by omega)
  refine ⟨hfront, ?_⟩
  have hthis : jsTrim l = (l.reverse.dropWhile isJsWs).reverse := by
    unfold jsTrim
    rw [hfront]
  rw [h] at hthis
  have hrev := congrArg List.reverse hthis
  simpa using hrev.symm

theorem head_not_ws_of_dropWhile_eq (l : Chars)
    (h : l.dropWhile isJsWs = l) :
    ∀ c, l.head? = some c → isJsWs c = false := by
  intro c hc
  cases l with
  | nil => cases hc
  | cons a t =>
    cases hc
    by_cases hp : isJsWs c = true
    · rw [List.dropWhile_cons_of_pos hp] at h
      have hsuf : t.dropWhile isJsWs <:+ t := List.dropWhile_suffix isJsWs
      have hle := hsuf.length_le
      have hlen := congrArg List.length h
      simp at hlen
      omega
    · simpa using hp

theorem jsTrim_eq_self (l : Chars)
    (h1 : ∀ c, l.head? = some c → isJsWs c = false)
    (h2 : ∀ c, l.reverse.head? = some c → isJsWs c = false) :
    jsTrim l = l := by
  have hfront : l.dropWhile isJsWs = l := by
    cases l with
    | nil => rfl
    | cons a t => exact List.dropWhile_cons_of_neg (by simp [h1 a rfl])
  have hback : l.reverse.dropWhile isJsWs = l.reverse := by
    cases hr : l.reverse with
    | nil => rfl
    | cons a t =>
      have ha := h2 a (by rw [hr]; rfl)
      exact List.dropWhile_cons_of_neg (by simp [ha])
  unfold jsTrim
  rw [hfront, hback]
  simp

theorem dropWhile_ws_append (a b : Chars)
    (h : ∀ c ∈ a, isJsWs c = true) :
    (a ++ b).dropWhile isJsWs = b.dropWhile isJsWs := by
  induction a with
  | nil => rfl
  | cons c t ih =>
    rw [List.cons_append, List.dropWhile_cons_of_pos (h c (by simp))]
    exact ih (fun x hx => h x (by simp [hx]))

theorem jsTrim_ws_prefix (a L : Chars)
    (hws : ∀ c ∈ a, isJsWs c = true) (hL : jsTrim L = L) :
    jsTrim (a ++ L) = L := by
  obtain ⟨hf, hb⟩ := jsTrim_parts L hL
  unfold jsTrim
  rw [dropWhile_ws_append a L hws, hf, hb]
  simp

theorem dropWhile_concat_keep (p : Char → Bool) (c : Char)
    (hc : p c = false) (w : Chars) :
    ∃ v, (w ++ [c]).dropWhile p = v ++ [c] := by
  induction w with
  | nil =>
    refine ⟨[], ?_⟩
    show List.dropWhile p [c] = [] ++ [c]
    rw [List.nil_append]
    exact List.dropWhile_cons_of_neg (by simp [hc])
  | cons a t ih =>
    by_cases hp : p a = true
    · obtain ⟨v, hv⟩ := ih
      exact ⟨v, by rw [List.cons_append, List.dropWhile_cons_of_pos hp, hv]⟩
    · exact ⟨a :: t, by
        rw [List.cons_append,
          List.dropWhile_cons_of_neg (by simpa using hp)]⟩

/-- The trimmed form of a line whose whitespace-stripped front begins with
a non-whitespace character `c` still begins with `c`. -/
theorem jsTrim_head_char (l u : Chars) (c : Char)
    (h : l.dropWhile isJsWs = c :: u) (hc : isJsWs c = false) :
    ∃ v, jsTrim l = c :: v := by
  unfold jsTrim
  rw [h]
  have : (c :: u).reverse = u.reverse ++ [c] := by simp
  rw [this]
  obtain ⟨v, hv⟩ := dropWhile_concat_keep isJsWs c hc u.reverse
  exact ⟨v.reverse, by rw [hv]; simp⟩

/-! Phase C: classification of `processLine` on each rendered line shape -/

theorem isPrefixOf_cons_ne (a b : Char) (as bs : Chars)
    (h : (a == b) = false) :
    (a :: as).isPrefixOf (b :: bs) = false := by
  rw [Bool.eq_false_iff]
  intro hcontra
  rw [List.isPrefixOf_iff_prefix, List.cons_prefix_cons] at hcontra
  rw [hcontra.1] at h
  simp at h

theorem isPrefixOf_append_self (a b : Chars) :
    a.isPrefixOf (a ++ b) = true := by
  rw [List.isPrefixOf_iff_prefix]
  exact List.prefix_append a b

theorem isPrefixOf_append_false (a b l : Chars)
    (h : a.isPrefixOf l = false) : (a ++ b).isPrefixOf l = false := by
  rw [Bool.eq_false_iff] at h ⊢
  intro hcontra
  rw [List.isPrefixOf_iff_prefix] at hcontra
  exact h (by
    rw [List.isPrefixOf_iff_prefix]
    exact (List.prefix_append a b).trans hcontra)

theorem takeWhile_append_neg (p : Char → Bool) (a : Chars) (c : Char)
    (r : Chars) (ha : ∀ x ∈ a, p x = true) (hc : p c = false) :
    (a ++ c :: r).takeWhile p = a := by
  induction a with
  | nil => simp [List.takeWhile_cons, hc]
  | cons x t ih =>
    rw [List.cons_append, List.takeWhile_cons_of_pos (ha x (by simp)),
      ih (fun y hy => ha y (by simp [hy]))]

theorem dropWhile_append_neg (p : Char → Bool) (a : Chars) (c : Char)
    (r : Chars) (ha : ∀ x ∈ a, p x = true) (hc : p c = false) :
    (a ++ c :: r).dropWhile p = c :: r := by
  induction a with
  | nil => simp [List.dropWhile_cons, hc]
  | cons x t ih =>
    rw [List.cons_append, List.dropWhile_cons_of_pos (ha x (by simp)),
      ih (fun y hy => ha y (by simp [hy]))]

theorem tabs_all_ws (i : Nat) : ∀ x ∈ tabs i, isJsWs x = true := by
  intro x hx
  have := List.eq_of_mem_replicate hx
  subst this
  rfl

theorem indentOfWs_tabs (i : Nat) : indentOfWs (tabs i) = i := by
  cases i with
  | zero => rfl
  | succ j =>
    unfold indentOfWs tabs
    have hmem : '\t' ∈ List.replicate (j + 1) '\t' := by
      simp [List.mem_replicate]
    have hcontains : (List.replicate (j + 1) '\t').contains '\t' = true := by
      simpa using hmem
    rw [if_pos hcontains]
    simp

theorem contains_append_false (a b : Chars) (c : Char)
    (ha : a.contains c = false) (hb : b.contains c = false) :
    (a ++ b).contains c = false := by
  simp at ha hb ⊢
  exact ⟨ha, hb⟩

theorem modifyLast_append_singleton (f : α → α) (xs : List α) (x : α) :
    modifyLast f (xs ++ [x]) = xs ++ [f x] := by
  induction xs with
  | nil => rfl
  | cons a t ih =>
    cases ht : t ++ [x] with
    | nil => exact absurd ht (by simp)
    | cons b bs =>
      show modifyLast f (a :: (t ++ [x])) = _
      rw [ht]
      show a :: modifyLast f (b :: bs) = a :: (t ++ [f x])
      rw [← ht, ih]

/-- A trimmed nonempty line ends in a non-whitespace character. -/
theorem trimmed_last_not_ws (t : Chars) (h : jsTrim t = t) :
    ∀ c, t.reverse.head? = some c → isJsWs c = false :=
  head_not_ws_of_dropWhile_eq t.reverse (jsTrim_parts t h).2

/-- Trim fixes a line of the form `prefix ++ t` whose first character is
non-whitespace and whose tail `t` is itself trimmed and nonempty. -/
theorem jsTrim_solid_append (a t : Chars) (c : Char) (hc : isJsWs c = false)
    (hhead : (a ++ t).head? = some c) (ht : jsTrim t = t) (hne : t ≠ []) :
    jsTrim (a ++ t) = a ++ t := by
  apply jsTrim_eq_self
  · intro d hd
    rw [hhead] at hd
    cases hd
    exact hc
  · intro d hd
    apply trimmed_last_not_ws t ht
    cases htr : t.reverse with
    | nil => exact absurd (by simpa using congrArg List.reverse htr) hne
    | cons e u =>
      rw [List.reverse_append, htr] at hd
      simpa using hd

/-- `processLine` on a heading line `## t` (well-formed non-Archive title),
outside a note block. -/
theorem processLine_heading (st : PState) (t : Chars)
    (hc : st.collectingNote = false) (hw : wfHeadTitle t = true) :
    processLine st ("## ".data ++ t) =
      { st with inArchive := false
                items := st.items ++ [mkHeading t]
                lastTarget := some true } := by
  simp only [wfHeadTitle, Bool.and_eq_true, bne_iff_ne, ne_eq,
    Bool.not_eq_true', beq_iff_eq] at hw
  obtain ⟨⟨⟨hnl, htr⟩, hne⟩, harch⟩ := hw
  have hne' : t ≠ [] := by
    intro hh
    rw [hh] at hne
    simp at hne
  have he3 : "## ".data = ['#', '#', ' '] := rfl
  have htrim : jsTrim ("## ".data ++ t) = "## ".data ++ t := by
    apply jsTrim_solid_append _ _ '#' (by decide) (by rw [he3]; rfl) htr hne'
  have hp1 : ("```plane".data).isPrefixOf ("## ".data ++ t) = false := by
    rw [he3]
    exact isPrefixOf_cons_ne _ _ _ _ (by decide)
  have hp2 : ("## ".data).isPrefixOf ("## ".data ++ t) = true :=
    isPrefixOf_append_self _ _
  have hdrop : ("## ".data ++ t).drop 3 = t := by rw [he3]; rfl
  have harchL : t ≠ "Archive".data := fun hh => harch (by rw [hh])
  simp only [processLine]
  rw [htrim]
  simp [hp1, hc, hp2, hdrop, htr, harchL]

/-- `processLine` on the `## Archive` line, outside a note block. -/
theorem processLine_archiveHeading (st : PState)
    (hc : st.collectingNote = false) :
    processLine st ("## Archive".data) = { st with inArchive := true } := by
  have h1 : ("```plane".data).isPrefixOf (jsTrim "## Archive".data) =
      false := by decide
  have h2 : ("## ".data).isPrefixOf (jsTrim "## Archive".data) = true := by
    decide
  have h3 : jsTrim ((jsTrim "## Archive".data).drop 3) = "Archive".data := by
    decide
  simp only [processLine]
  simp [h1, h2, h3, hc]

/-- `processLine` on the note-fence opener, from any state. -/
theorem processLine_noteOpen (st : PState) :
    processLine st ("    ```plane".data) =
      { st with collectingNote := true, currentNote := [] } := by
  have h1 : ("```plane".data).isPrefixOf (jsTrim "    ```plane".data) =
      true := by decide
  simp only [processLine]
  simp [h1]

/-- `processLine` on a 4-space-indented note content line while
collecting. -/
theorem processLine_noteContent (st : PState) (l : Chars)
    (hc : st.collectingNote = true) (hw : wfNoteLine l = true) :
    processLine st ("    ".data ++ l) =
      { st with currentNote := st.currentNote ++ [l] } := by
  simp only [wfNoteLine, Bool.and_eq_true, Bool.not_eq_true', beq_iff_eq]
    at hw
  obtain ⟨⟨hnl, htr⟩, hfence⟩ := hw
  have hws : ∀ c ∈ ("    ".data : Chars), isJsWs c = true := by decide
  have htrim : jsTrim ("    ".data ++ l) = l := jsTrim_ws_prefix _ _ hws htr
  have hp1 : ("```plane".data).isPrefixOf l = false := by
    have : ("```plane".data : Chars) = "```".data ++ "plane".data := rfl
    rw [this]
    exact isPrefixOf_append_false _ _ _ hfence
  simp only [processLine]
  rw [htrim]
  simp [hp1, hc, hfence]

/-- `processLine` on the note-fence closer while collecting, when the last
pushed item went to the main list. -/
theorem processLine_noteCloseMain (it ar : List MDItem) (cn : List Chars)
    (ia : Bool) :
    processLine ⟨it, ar, true, cn, some true, ia⟩ ("    ```".data) =
      ⟨modifyLast (fun x => { x with note := intercalNl cn }) it, ar, false,
        cn, some true, ia⟩ := by
  have h1 : ("```plane".data).isPrefixOf (jsTrim "    ```".data) = false := by
    decide
  have h2 : ("```".data).isPrefixOf (jsTrim "    ```".data) = true := by
    decide
  simp only [processLine]
  simp [h1, h2]

/-- `processLine` on the note-fence closer while collecting, when the last
pushed item went to the archive list. -/
theorem processLine_noteCloseArch (it ar : List MDItem) (cn : List Chars)
    (ia : Bool) :
    processLine ⟨it, ar, true, cn, some false, ia⟩ ("    ```".data) =
      ⟨it, modifyLast (fun x => { x with note := intercalNl cn }) ar, false,
        cn, some false, ia⟩ := by
  have h1 : ("```plane".data).isPrefixOf (jsTrim "    ```".data) = false := by
    decide
  have h2 : ("```".data).isPrefixOf (jsTrim "    ```".data) = true := by
    decide
  simp only [processLine]
  simp [h1, h2]

/-- `processLine` on a rendered todo line (tab indent `i ≤ 1`, check
character `x` or space, single-line title), outside a note block: the todo
is appended to the list selected by the archive flag. -/
theorem processLine_todoLine (st : PState) (i : Nat) (c : Char)
    (title : Chars) (hi : i ≤ 1) (hcch : c = 'x' ∨ c = ' ')
    (hw : wfTodoTitle title = true) (hc : st.collectingNote = false) :
    processLine st (tabs i ++ "- [".data ++ [c] ++ "] ".data ++ title) =
      (if st.inArchive then
        { st with archivedItems := st.archivedItems ++ [mkTodo i title true]
                  lastTarget := some false }
       else
        { st with items := st.items ++ [mkTodo i title (c == 'x')]
                  lastTarget := some true }) := by
  simp only [wfTodoTitle, Bool.and_eq_true, Bool.not_eq_true'] at hw
  obtain ⟨⟨⟨hnl, hcr⟩, h28⟩, h29⟩ := hw
  have hline : tabs i ++ "- [".data ++ [c] ++ "] ".data ++ title =
      tabs i ++ ('-' :: ' ' :: '[' :: c :: ']' :: ' ' :: title) := by
    simp
  rw [hline]
  have hdropL : (tabs i ++
      ('-' :: ' ' :: '[' :: c :: ']' :: ' ' :: title)).dropWhile isJsWs =
      '-' :: ' ' :: '[' :: c :: ']' :: ' ' :: title :=
    dropWhile_append_neg _ _ _ _ (tabs_all_ws i) (by decide)
  have htakeL : (tabs i ++
      ('-' :: ' ' :: '[' :: c :: ']' :: ' ' :: title)).takeWhile isJsWs =
      tabs i :=
    takeWhile_append_neg _ _ _ _ (tabs_all_ws i) (by decide)
  obtain ⟨v, hv⟩ := jsTrim_head_char _ _ '-' hdropL (by decide)
  have hp1 : ("```plane".data).isPrefixOf ('-' :: v) = false :=
    isPrefixOf_cons_ne _ _ _ _ (by decide)
  have hp2 : ("## ".data).isPrefixOf ('-' :: v) = false :=
    isPrefixOf_cons_ne _ _ _ _ (by decide)
  have hcc : (c == ' ' || c == 'x') = true := by
    rcases hcch with hh | hh <;> simp [hh]
  have hmatch : matchTodo
      (tabs i ++ ('-' :: ' ' :: '[' :: c :: ']' :: ' ' :: title)) =
      some (tabs i, c == 'x', title) := by
    have hcr' : '\x0d' ∉ title := by simpa using hcr
    have h28' : '\u2028' ∉ title := by simpa using h28
    have h29' : '\u2029' ∉ title := by simpa using h29
    simp only [matchTodo]
    rw [htakeL, hdropL]
    simp [hcc, hcr', h28', h29']
    decide
  have hclamp : (if 1 < i then 1 else i) = i := if_neg (by omega)
  simp only [processLine]
  rw [hv]
  simp [hp1, hc, hp2, hmatch, indentOfWs_tabs, hclamp]

/-- `processLine` on the empty final line, outside a note block. -/
theorem processLine_empty (st : PState) (hc : st.collectingNote = false) :
    processLine st [] = st := by
  have h1 : ("```plane".data).isPrefixOf (jsTrim []) = false := by decide
  have h2 : ("## ".data).isPrefixOf (jsTrim []) = false := by decide
  have h3 : matchTodo [] = none := by decide
  simp only [processLine]
  simp [h1, h2, h3, hc]

/-! Phase D: folding `processLine` over whole rendered blocks -/

theorem fold_noteContent (note : List Chars) : ∀ st : PState,
    st.collectingNote = true → note.all wfNoteLine = true →
    List.foldl processLine st (note.map (fun l => "    ".data ++ l)) =
      { st with currentNote := st.currentNote ++ note } := by
  induction note with
  | nil =>
    intro st hc hw
    simp
  | cons l rest ih =>
    intro st hc hw
    simp only [List.all_cons, Bool.and_eq_true] at hw
    rw [List.map_cons, List.foldl_cons,
      processLine_noteContent st l hc hw.1,
      ih { st with currentNote := st.currentNote ++ [l] } hc hw.2]
    simp

/-- Folding a whole rendered note block (nonempty note) attaches the note
to the last main-list item and leaves the content lines as residue in
`currentNote`. -/
theorem fold_noteAttachMain (note : List Chars) (st : PState)
    (hc : st.collectingNote = false) (hl : st.lastTarget = some true)
    (hw : wfNote note = true) (hne : note ≠ []) :
    List.foldl processLine st (renderNoteLines note) =
      { st with
        items := modifyLast (fun it => { it with note := intercalNl note })
          st.items
        currentNote := note } := by
  have hwall : note.all wfNoteLine = true := by
    simp only [wfNote, Bool.and_eq_true] at hw
    exact hw.1
  have hinm : note.isEmpty = false := by
    cases note with
    | nil => exact absurd rfl hne
    | cons a b => rfl
  simp only [renderNoteLines, hinm, Bool.false_eq_true, if_false]
  rw [List.foldl_cons, processLine_noteOpen st, List.foldl_append,
    fold_noteContent note { st with collectingNote := true, currentNote := [] }
      rfl hwall,
    List.foldl_cons, List.foldl_nil]
  simp only [List.nil_append]
  rw [hl, processLine_noteCloseMain]
  simp [hc, hl]

/-- Archive-side version of `fold_noteAttachMain`. -/
theorem fold_noteAttachArch (note : List Chars) (st : PState)
    (hc : st.collectingNote = false) (hl : st.lastTarget = some false)
    (hw : wfNote note = true) (hne : note ≠ []) :
    List.foldl processLine st (renderNoteLines note) =
      { st with
        archivedItems :=
          modifyLast (fun it => { it with note := intercalNl note })
            st.archivedItems
        currentNote := note } := by
  have hwall : note.all wfNoteLine = true := by
    simp only [wfNote, Bool.and_eq_true] at hw
    exact hw.1
  have hinm : note.isEmpty = false := by
    cases note with
    | nil => exact absurd rfl hne
    | cons a b => rfl
  simp only [renderNoteLines, hinm, Bool.false_eq_true, if_false]
  rw [List.foldl_cons, processLine_noteOpen st, List.foldl_append,
    fold_noteContent note { st with collectingNote := true, currentNote := [] }
      rfl hwall,
    List.foldl_cons, List.foldl_nil]
  simp only [List.nil_append]
  rw [hl, processLine_noteCloseArch]
  simp [hc, hl]

/-- Folding one rendered main entry appends exactly the parsed item. -/
theorem fold_entry (e : GEntry) (st : PState)
    (hc : st.collectingNote = false) (ha : st.inArchive = false)
    (hw : wfEntry e = true) :
    ∃ cn, List.foldl processLine st (renderEntryLines e) =
      { st with items := st.items ++ [entryMDItem e]
                lastTarget := some true
                currentNote := cn } := by
  cases e with
  | ghead t note =>
    simp only [wfEntry, Bool.and_eq_true] at hw
    simp only [renderEntryLines]
    rw [List.foldl_cons, processLine_heading st t hc hw.1]
    cases note with
    | nil =>
      refine ⟨st.currentNote, ?_⟩
      simp [renderNoteLines, ha, entryMDItem, mkHeading, intercalNl]
    | cons l0 rest =>
      refine ⟨l0 :: rest, ?_⟩
      rw [fold_noteAttachMain (l0 :: rest)
        { st with inArchive := false
                  items := st.items ++ [mkHeading t]
                  lastTarget := some true } hc rfl hw.2 (by simp)]
      simp [ha, entryMDItem, modifyLast_append_singleton]
  | gtodo g =>
    simp only [wfEntry, wfGTodo, Bool.and_eq_true, decide_eq_true_eq] at hw
    obtain ⟨⟨hind, htit⟩, hnote⟩ := hw
    have hchk : ((if g.checked then 'x' else ' ') == 'x') = g.checked := by
      cases g.checked <;> rfl
    simp only [renderEntryLines]
    rw [List.foldl_cons,
      processLine_todoLine st g.indent _ g.title hind
        (by cases g.checked <;> simp) htit hc,
      if_neg (by simp [ha])]
    cases hgn : g.note with
    | nil =>
      refine ⟨st.currentNote, ?_⟩
      simp [renderNoteLines, entryMDItem, mkTodo, intercalNl, hchk, hgn]
    | cons l0 rest =>
      refine ⟨l0 :: rest, ?_⟩
      rw [← hgn, fold_noteAttachMain g.note
        { st with
          items := st.items ++
            [mkTodo g.indent g.title ((if g.checked then 'x' else ' ') == 'x')]
          lastTarget := some true } hc rfl hnote (by simp [hgn])]
      simp [entryMDItem, modifyLast_append_singleton, hchk, hgn]

/-- Folding the rendered main section appends all parsed main items. -/
theorem fold_entries (es : List GEntry) : ∀ st : PState,
    st.collectingNote = false → st.inArchive = false →
    es.all wfEntry = true →
    ∃ cn lt,
      List.foldl processLine st ((es.map renderEntryLines).flatten) =
        { st with items := st.items ++ es.map entryMDItem
                  lastTarget := lt
                  currentNote := cn } := by
  induction es with
  | nil =>
    intro st hc ha hw
    exact ⟨st.currentNote, st.lastTarget, by simp⟩
  | cons e rest ih =>
    intro st hc ha hw
    simp only [List.all_cons, Bool.and_eq_true] at hw
    rw [List.map_cons, List.flatten_cons, List.foldl_append]
    obtain ⟨cn1, h1⟩ := fold_entry e st hc ha hw.1
    rw [h1]
    obtain ⟨cn2, lt2, h2⟩ := ih
      { st with items := st.items ++ [entryMDItem e]
                lastTarget := some true
                currentNote := cn1 } hc ha hw.2
    rw [h2]
    exact ⟨cn2, lt2, by simp⟩

/-- Folding one rendered archive entry appends exactly the parsed archived
item. -/
theorem fold_archEntry (g : GTodo) (st : PState)
    (hc : st.collectingNote = false) (ha : st.inArchive = true)
    (hw : wfGTodo g = true) :
    ∃ cn, List.foldl processLine st (renderArchLines g) =
      { st with archivedItems := st.archivedItems ++ [archMDItem g]
                lastTarget := some false
                currentNote := cn } := by
  simp only [wfGTodo, Bool.and_eq_true, decide_eq_true_eq] at hw
  obtain ⟨⟨hind, htit⟩, hnote⟩ := hw
  have e1 : ("- [x] ".data : Chars) = "- [".data ++ ['x'] ++ "] ".data := rfl
  have hline : tabs g.indent ++ "- [x] ".data ++ g.title =
      tabs g.indent ++ "- [".data ++ ['x'] ++ "] ".data ++ g.title := by
    rw [e1]
    simp [List.append_assoc]
  simp only [renderArchLines]
  rw [hline, List.foldl_cons,
    processLine_todoLine st g.indent 'x' g.title hind (Or.inl rfl) htit hc,
    if_pos (by simp [ha])]
  cases hgn : g.note with
  | nil =>
    refine ⟨st.currentNote, ?_⟩
    simp [renderNoteLines, archMDItem, mkTodo, intercalNl, hgn]
  | cons l0 rest =>
    refine ⟨l0 :: rest, ?_⟩
    rw [← hgn, fold_noteAttachArch g.note
      { st with
        archivedItems := st.archivedItems ++ [mkTodo g.indent g.title true]
        lastTarget := some false } hc rfl hnote (by simp [hgn])]
    simp [archMDItem, modifyLast_append_singleton, hgn]

/-- Folding the rendered archive entries appends all parsed archived
items. -/
theorem fold_archEntries (gs : List GTodo) : ∀ st : PState,
    st.collectingNote = false → st.inArchive = true →
    gs.all wfGTodo = true →
    ∃ cn lt,
      List.foldl processLine st ((gs.map renderArchLines).flatten) =
        { st with
          archivedItems := st.archivedItems ++ gs.map archMDItem
          lastTarget := lt
          currentNote := cn } := by
  induction gs with
  | nil =>
    intro st hc ha hw
    exact ⟨st.currentNote, st.lastTarget, by simp⟩
  | cons g rest ih =>
    intro st hc ha hw
    simp only [List.all_cons, Bool.and_eq_true] at hw
    rw [List.map_cons, List.flatten_cons, List.foldl_append]
    obtain ⟨cn1, h1⟩ := fold_archEntry g st hc ha hw.1
    rw [h1]
    obtain ⟨cn2, lt2, h2⟩ := ih
      { st with archivedItems := st.archivedItems ++ [archMDItem g]
                lastTarget := some false
                currentNote := cn1 } hc ha hw.2
    rw [h2]
    exact ⟨cn2, lt2, by simp⟩

/-! Phase E: the whole document parses back to the grammar's item lists -/

theorem tabs_no_newline (i : Nat) : (tabs i).contains '\n' = false := by
  have hmem : '\n' ∉ tabs i := by
    intro hmem
    have := List.eq_of_mem_replicate hmem
    exact absurd this (by decide)
  simpa using hmem

theorem renderNoteLines_no_newline (note : List Chars)
    (hw : wfNote note = true) :
    ∀ l ∈ renderNoteLines note, l.contains '\n' = false := by
  intro l hl
  have hwall : ∀ x ∈ note, wfNoteLine x = true := by
    simp only [wfNote, Bool.and_eq_true, List.all_eq_true] at hw
    exact hw.1
  cases note with
  | nil => simp [renderNoteLines] at hl
  | cons a b =>
    rw [renderNoteLines, if_neg (by simp)] at hl
    rcases List.mem_cons.mp hl with h | hl2
    · rw [h]; decide
    · rcases List.mem_append.mp hl2 with hmap | hsing
      · obtain ⟨x, hx, hxl⟩ := List.mem_map.mp hmap
        rw [← hxl]
        apply contains_append_false _ _ _ (by decide)
        have hx' := hwall x hx
        simp only [wfNoteLine, Bool.and_eq_true, Bool.not_eq_true'] at hx'
        exact hx'.1.1
      · rw [List.mem_singleton.mp hsing]; decide

theorem renderEntryLines_no_newline (e : GEntry) (hw : wfEntry e = true) :
    ∀ l ∈ renderEntryLines e, l.contains '\n' = false := by
  intro l hl
  cases e with
  | ghead t note =>
    simp only [wfEntry, Bool.and_eq_true] at hw
    simp only [renderEntryLines, List.mem_cons] at hl
    rcases hl with h | h
    · rw [h]
      apply contains_append_false _ _ _ (by decide)
      have := hw.1
      simp only [wfHeadTitle, Bool.and_eq_true, Bool.not_eq_true'] at this
      exact this.1.1.1
    · exact renderNoteLines_no_newline note hw.2 l h
  | gtodo g =>
    simp only [wfEntry, wfGTodo, Bool.and_eq_true] at hw
    simp only [renderEntryLines, List.mem_cons] at hl
    rcases hl with h | h
    · rw [h]
      have htit : g.title.contains '\n' = false := by
        have := hw.1.2
        simp only [wfTodoTitle, Bool.and_eq_true, Bool.not_eq_true'] at this
        exact this.1.1.1
      apply contains_append_false _ _ _ _ htit
      apply contains_append_false _ _ _ _ (by decide)
      apply contains_append_false _ _ _ _
        (by cases g.checked <;> decide)
      exact contains_append_false _ _ _ (tabs_no_newline g.indent) (by decide)
    · exact renderNoteLines_no_newline g.note hw.2 l h

theorem renderArchLines_no_newline (g : GTodo) (hw : wfGTodo g = true) :
    ∀ l ∈ renderArchLines g, l.contains '\n' = false := by
  intro l hl
  simp only [wfGTodo, Bool.and_eq_true] at hw
  simp only [renderArchLines, List.mem_cons] at hl
  rcases hl with h | h
  · rw [h]
    have htit : g.title.contains '\n' = false := by
      have := hw.1.2
      simp only [wfTodoTitle, Bool.and_eq_true, Bool.not_eq_true'] at this
      exact this.1.1.1
    apply contains_append_false _ _ _ _ htit
    exact contains_append_false _ _ _ (tabs_no_newline g.indent) (by decide)
  · exact renderNoteLines_no_newline g.note hw.2 l h

theorem docLines_no_newline (d : GDoc) (h : wfDoc d = true) :
    ∀ l ∈ docLines d, l.contains '\n' = false := by
  intro l hl
  simp only [wfDoc, Bool.and_eq_true, List.all_eq_true] at h
  simp only [docLines, List.mem_append] at hl
  rcases hl with hmain | harch
  · simp only [List.mem_flatten, List.mem_map] at hmain
    obtain ⟨ls, ⟨e, he, hrend⟩, hlls⟩ := hmain
    rw [← hrend] at hlls
    exact renderEntryLines_no_newline e (h.1 e he) l hlls
  · cases hda : d.archive with
    | nil => rw [hda] at harch; simp at harch
    | cons g gs =>
      rw [hda] at harch
      simp only [List.isEmpty_cons, Bool.false_eq_true, if_false,
        List.mem_cons, List.mem_flatten, List.mem_map] at harch
      rcases harch with hh | ⟨ls, ⟨g', hg', hrend⟩, hlls⟩
      · rw [hh]; decide
      · rw [← hrend] at hlls
        exact renderArchLines_no_newline g'
          (h.2 g' (by rw [hda]; exact List.mem_cons.mpr hg')) l hlls

/-- Parsing the rendered document yields exactly the per-entry items. -/
theorem parse_doc (d : GDoc) (h : wfDoc d = true) :
    (parseMarkdown (docText d)).items = d.main.map entryMDItem ∧
      (parseMarkdown (docText d)).archivedItems =
        d.archive.map archMDItem := by
  have hsplit : splitNl (docText d) = docLines d ++ [[]] :=
    splitNl_joinNl _ (docLines_no_newline d h)
  simp only [wfDoc, Bool.and_eq_true] at h
  unfold parseMarkdown parseMarkdownLines
  rw [hsplit, docLines, List.foldl_append, List.foldl_append]
  obtain ⟨cn1, lt1, h1⟩ := fold_entries d.main initPState rfl rfl h.1
  rw [h1]
  cases harch : d.archive with
  | nil =>
    simp [processLine_empty, initPState]
  | cons g gs =>
    have harchall : (g :: gs).all wfGTodo = true := by
      rw [← harch]; exact h.2
    simp only [List.isEmpty_cons, Bool.false_eq_true, if_false,
      List.foldl_cons, initPState, List.nil_append]
    rw [processLine_archiveHeading _ rfl]
    obtain ⟨cn2, lt2, h2⟩ := fold_archEntries (g :: gs)
      ⟨d.main.map entryMDItem, [], false, cn1, lt1, true⟩ rfl rfl harchall
    rw [h2]
    simp [processLine_empty]

/-! Phase F: serialization of the parsed items reproduces the text -/

theorem joinNl_cons (l : Chars) (ls : List Chars) :
    joinNl (l :: ls) = (l ++ ['\n']) ++ joinNl ls := by
  simp [joinNl]

theorem joinNl_append (a b : List Chars) :
    joinNl (a ++ b) = joinNl a ++ joinNl b := by
  simp [joinNl]

theorem joinNl_flatten_map {α : Type} (f : α → List Chars) (xs : List α) :
    joinNl ((xs.map f).flatten) =
      (xs.map (fun x => joinNl (f x))).flatten := by
  induction xs with
  | nil => rfl
  | cons x t ih => simp [joinNl_append, ih]

theorem intercalNl_cons_ex (l0 : Chars) (rest : List Chars) :
    ∃ s, intercalNl (l0 :: rest) = l0 ++ s := by
  cases rest with
  | nil => exact ⟨[], by simp [intercalNl]⟩
  | cons l1 ls => exact ⟨'\n' :: intercalNl (l1 :: ls), rfl⟩

/-- The note text parsed from a nonempty well-formed note block survives
the serializer's `trim().length > 0` guard. -/
theorem jsTrim_intercalNl_cons (l0 : Chars) (rest : List Chars)
    (hw : wfNote (l0 :: rest) = true) :
    ∃ c v, jsTrim (intercalNl (l0 :: rest)) = c :: v := by
  have hw' := hw
  simp only [wfNote, Bool.and_eq_true, List.all_cons] at hw'
  have hl0w : wfNoteLine l0 = true := hw'.1.1
  have hl0ne : l0 ≠ [] := by
    intro hh
    rw [wfNote] at hw
    simp [hh] at hw
  obtain ⟨c, u, hcu⟩ : ∃ c u, l0 = c :: u := by
    cases l0 with
    | nil => exact absurd rfl hl0ne
    | cons c u => exact ⟨c, u, rfl⟩
  have hl0tr : jsTrim l0 = l0 := by
    simp only [wfNoteLine, Bool.and_eq_true, beq_iff_eq] at hl0w
    exact hl0w.1.2
  have hcnws : isJsWs c = false := by
    apply head_not_ws_of_dropWhile_eq l0 (jsTrim_parts l0 hl0tr).1
    rw [hcu]
    rfl
  obtain ⟨s, hs⟩ := intercalNl_cons_ex l0 rest
  have hdrop : (intercalNl (l0 :: rest)).dropWhile isJsWs =
      c :: (u ++ s) := by
    rw [hs, hcu, List.cons_append]
    exact List.dropWhile_cons_of_neg (by simp [hcnws])
  obtain ⟨v, hv⟩ := jsTrim_head_char _ _ c hdrop hcnws
  exact ⟨c, v, hv⟩

/-- The serializer's note chunk for the parsed note text is exactly the
joined rendered note block. -/
theorem noteChunk_render (note : List Chars) (hw : wfNote note = true) :
    noteChunk (intercalNl note) = joinNl (renderNoteLines note) := by
  cases note with
  | nil => rfl
  | cons l0 rest =>
    obtain ⟨c, v, htrim⟩ := jsTrim_intercalNl_cons l0 rest hw
    have hguard : ¬jsTrim (intercalNl (l0 :: rest)) = [] := by
      rw [htrim]
      simp
    have hlines : ∀ l ∈ l0 :: rest, l.contains '\n' = false := by
      intro l hl
      simp only [wfNote, Bool.and_eq_true, List.all_eq_true] at hw
      have := hw.1 l hl
      simp only [wfNoteLine, Bool.and_eq_true, Bool.not_eq_true'] at this
      exact this.1.1
    have hsp : splitNl (intercalNl (l0 :: rest)) = l0 :: rest :=
      splitNl_intercalNl _ (by simp) hlines
    have e1 : ("    ```plane\n".data : Chars) =
        "    ```plane".data ++ ['\n'] := rfl
    have e2 : ("    ```\n".data : Chars) = "    ```".data ++ ['\n'] := rfl
    rw [noteChunk, if_neg hguard, hsp, renderNoteLines, if_neg (by simp)]
    rw [joinNl_cons, joinNl_append, e1, e2]
    simp [joinNl, List.map_map, Function.comp, List.append_assoc]
    congr 1

/-- Serializing the item parsed from a main entry reproduces the entry's
rendered lines. -/
theorem stringifyMainItem_entry (e : GEntry) (hw : wfEntry e = true) :
    stringifyMainItem (entryMDItem e) = joinNl (renderEntryLines e) := by
  cases e with
  | ghead t note =>
    simp only [wfEntry, Bool.and_eq_true] at hw
    have hrend : renderEntryLines (.ghead t note) =
        ("## ".data ++ t) :: renderNoteLines note := rfl
    rw [hrend, joinNl_cons, ← noteChunk_render note hw.2]
    simp [stringifyMainItem, entryMDItem, mkHeading, List.append_assoc]
  | gtodo g =>
    simp only [wfEntry, wfGTodo, Bool.and_eq_true] at hw
    have hrend : renderEntryLines (.gtodo g) =
        (tabs g.indent ++ "- [".data ++ [if g.checked then 'x' else ' '] ++
          "] ".data ++ g.title) :: renderNoteLines g.note := rfl
    rw [hrend, joinNl_cons, ← noteChunk_render g.note hw.2]
    simp [stringifyMainItem, entryMDItem, mkTodo, List.append_assoc]

/-- Serializing the item parsed from an archive entry reproduces the
entry's rendered lines. -/
theorem stringifyArchItem_arch (g : GTodo) (hw : wfGTodo g = true) :
    stringifyArchItem (archMDItem g) = joinNl (renderArchLines g) := by
  simp only [wfGTodo, Bool.and_eq_true] at hw
  have hrend : renderArchLines g =
      (tabs g.indent ++ "- [x] ".data ++ g.title) :: renderNoteLines g.note :=
    rfl
  rw [hrend, joinNl_cons, ← noteChunk_render g.note hw.2]
  simp [stringifyArchItem, archMDItem, mkTodo, List.append_assoc]

/-- Serializing the two parsed item lists of a well-formed document
reproduces the document text. -/
theorem stringify_doc (d : GDoc) (h : wfDoc d = true) :
    stringifyItems (d.main.map entryMDItem) (d.archive.map archMDItem) =
      docText d := by
  simp only [wfDoc, Bool.and_eq_true, List.all_eq_true] at h
  rw [stringifyItems, docText, docLines, joinNl_append]
  congr 1
  · rw [List.map_map, joinNl_flatten_map]
    congr 1
    apply List.map_congr_left
    intro e he
    exact stringifyMainItem_entry e (h.1 e he)
  · cases harch : d.archive with
    | nil => rfl
    | cons g gs =>
      have e3 : ("## Archive\n".data : Chars) =
          "## Archive".data ++ ['\n'] := rfl
      rw [if_neg (by simp), if_neg (by simp), joinNl_cons, e3,
        List.map_map, joinNl_flatten_map]
      refine congrArg₂ (· ++ ·) rfl ?_
      refine congrArg List.flatten ?_
      apply List.map_congr_left
      intro g' hg'
      exact stringifyArchItem_arch g'
        (h.2 g' (by rw [harch]; exact hg'))

end MD

/-- A concrete well-formed document exercising every construct of the
round-trip grammar: a heading with a two-line note, a parent todo, a
checked child todo with a note, and two archived todos, one with a
note. -/
def c4Doc : MD.GDoc :=
  { main := [.ghead "Work".data ["plan the week".data, "check email".data],
             .gtodo ⟨0, false, "write report".data, []⟩,
             .gtodo ⟨1, true, "outline".data, ["see notes".data]⟩]
    archive := [⟨0, true, "old task".data, []⟩,
                ⟨1, true, "older".data, ["was hard".data]⟩] }

/-- C4.  For every document in the claim's class — heading lines,
indent-0/1 todo lines and attached note blocks in the serializer's own
dialect, archive section last — serializing the result of deserializing
the document reproduces the original text byte for byte:
`stringifyItems` applied to the two lists produced by
`parseMarkdown text` equals `text`. -/
theorem c4_round_trip (d : MD.GDoc) (h : MD.wfDoc d = true) :
    MD.stringifyItems (MD.parseMarkdown (MD.docText d)).items
      (MD.parseMarkdown (MD.docText d)).archivedItems = MD.docText d := by
  obtain ⟨h1, h2⟩ := MD.parse_doc d h
  rw [h1, h2]
  exact MD.stringify_doc d h

/-- C4 witness: the concrete document `c4Doc` is well formed and round
trips exactly. -/
theorem c4_round_trip_witness :
    MD.wfDoc c4Doc = true ∧
      MD.stringifyItems (MD.parseMarkdown (MD.docText c4Doc)).items
        (MD.parseMarkdown (MD.docText c4Doc)).archivedItems =
        MD.docText c4Doc :=
  ⟨by decide, c4_round_trip c4Doc (by decide)⟩

end ArchyTask
